import Mathlib

/-!
Verification of the crawl-and-assemble documentation scraper (`src/scraper.js`).

The JavaScript source is shallowly embedded: pure string-building functions
become Lean functions over `String`; the DOM fragments manipulated inside the
browser context become a `Node` tree; filesystem and browser-session effects
become explicit oracles plus event logs.  Machine-level concerns that the
claims do not touch (actual network traffic, real timers, the md5 digest of
the `crypto` library) are abstracted behind parameters, as noted at each
definition.
-/

set_option maxRecDepth 10000

namespace Scraper

/-! ## JavaScript string primitives -/

/-- `List`-level substring occurrence test, used to embed
`String.prototype.includes`. -/
def listContainsSeq (pat : List Char) : List Char → Bool
  | [] => pat.isEmpty
  | c :: cs => pat.isPrefixOf (c :: cs) || listContainsSeq pat cs

/-- Embedding of JavaScript `s.includes(pat)`. -/
def jsIncludes (s pat : String) : Bool :=
  listContainsSeq pat.data s.data

/-- UTF-8 encoding of a Unicode code point, as a list of byte values. -/
def utf8Bytes (n : Nat) : List Nat :=
  if n < 0x80 then [n]
  else if n < 0x800 then
    [0xC0 + n / 0x40, 0x80 + n % 0x40]
  else if n < 0x10000 then
    [0xE0 + n / 0x1000, 0x80 + (n / 0x40) % 0x40, 0x80 + n % 0x40]
  else
    [0xF0 + n / 0x40000, 0x80 + (n / 0x1000) % 0x40, 0x80 + (n / 0x40) % 0x40,
      0x80 + n % 0x40]

/-- Uppercase hexadecimal digit for `n < 16`. -/
def hexUpperDigit (n : Nat) : Char :=
  if n < 10 then Char.ofNat (48 + n) else Char.ofNat (55 + n)

/-- Percent-escape of one byte, e.g. `%2F`. -/
def percentByte (b : Nat) : List Char :=
  ['%', hexUpperDigit (b / 16), hexUpperDigit (b % 16)]

/-- The characters `encodeURIComponent` leaves unescaped:
`A-Z a-z 0-9 - _ . ! ~ * ' ( )`. -/
def uriUnreserved (c : Char) : Bool :=
  ('A' ≤ c && c ≤ 'Z') || ('a' ≤ c && c ≤ 'z') || ('0' ≤ c && c ≤ '9') ||
    c == '-' || c == '_' || c == '.' || c == '!' || c == '~' || c == '*' ||
    c == Char.ofNat 39 || c == '(' || c == ')'

/-- Embedding of JavaScript's `encodeURIComponent`: unreserved characters pass
through, every other character is percent-escaped byte-wise in UTF-8. -/
def encodeURIComponent (s : String) : String :=
  ⟨s.data.flatMap fun c =>
    if uriUnreserved c then [c] else (utf8Bytes c.toNat).flatMap percentByte⟩

/-! ## Configuration constants (`config` object, scraper.js lines 105-124) -/

def BASE_URL : String := "https://threejs.org"
def DOCS_URL : String :=
  "https://threejs.org/docs/index.html#manual/en/introduction/Creating-a-scene"
def OUTPUT_DIR : String := "docs"
def CACHE_DIR : String := ".cache"
def CACHE_VERSION : String := "1"
def DEV_PAGE_LIMIT : Nat := 10

/-! ## Data model -/

/-- A record consumed by the document assembler: built in
`scrapeDocumentation` as `{title: link.text, content: content.content,
section: link.section || 'Reference'}`. -/
structure DocRecord where
  title : String
  content : String
  «section» : String
  deriving DecidableEq

/-- A discovered documentation link (`extractLinks` result element). -/
structure LinkRecord where
  url : String
  text : String
  path : String
  «section» : String
  deriving DecidableEq

/-! ## Grouping by section (`generateTableOfContents`, lines 380-408)

The JavaScript accumulates groups in a plain object
(`acc[section] = []; acc[section].push(doc)`) and then walks
`Object.entries(sections)`.  We model the object as an association list in
property-creation order, and model the ECMAScript own-property enumeration
order of `Object.entries` separately in `jsEntries`: array-index-like keys
(canonical base-10 numerals below 2^32 - 1) come first, in ascending numeric
order, followed by the remaining string keys in insertion order. -/

/-- The defaulted section label: `doc.section || 'Reference'` (the only falsy
`String` is the empty string). -/
def sectionKey (d : DocRecord) : String :=
  if d.«section» == "" then "Reference" else d.«section»

/-- One non-throwing step of the `reduce`: push `d` onto the group of key
`k`, creating the group at the end if the key is new.  (The value of the
step on the path where `acc[section].push` does not throw; the faithful
step, `TypeError` included, is `insertGroupE` below.) -/
def insertGroup (acc : List (String × List DocRecord)) (k : String)
    (d : DocRecord) : List (String × List DocRecord) :=
  match acc with
  | [] => [(k, [d])]
  | (k', ds) :: rest =>
    if k' == k then (k', ds ++ [d]) :: rest else (k', ds) :: insertGroup rest k d

/-- The property keys a fresh object literal inherits from
`Object.prototype`: eleven methods and the `__proto__` accessor.  Every one
of them resolves to a truthy value (a function, or `Object.prototype` itself
for the `__proto__` getter), and none of those values has a `push` method. -/
def protoKeys : List String :=
  ["constructor", "hasOwnProperty", "isPrototypeOf", "propertyIsEnumerable",
   "toLocaleString", "toString", "valueOf", "__defineGetter__",
   "__defineSetter__", "__lookupGetter__", "__lookupSetter__", "__proto__"]

def isProtoKey (s : String) : Bool :=
  protoKeys.contains s

/-- One step of the `reduce`, prototype chain included.  `!acc[section]`
looks the key up on the object: an own group is an array (truthy), so the
record is pushed onto it; a key absent from the object but present on
`Object.prototype` resolves to a truthy inherited value, so the group is
never created and `acc[section].push(doc)` throws a `TypeError`; otherwise
the lookup is `undefined` (falsy), the group is created and the push
succeeds. -/
def insertGroupE (acc : List (String × List DocRecord)) (k : String)
    (d : DocRecord) : Except String (List (String × List DocRecord)) :=
  if acc.any (fun p => p.1 == k) then .ok (insertGroup acc k d)
  else if isProtoKey k then
    .error "TypeError: acc[section].push is not a function"
  else .ok (insertGroup acc k d)

/-- The non-throwing-path accumulator of the `documentation.reduce(...)` of
`generateTableOfContents`, in property-creation order.  (`groupDocsE` below
is the faithful reduce; it agrees with `.ok` of this value exactly when no
section label is an `Object.prototype` key.) -/
def groupDocs (docs : List DocRecord) : List (String × List DocRecord) :=
  docs.foldl (fun acc d => insertGroup acc (sectionKey d) d) []

def groupDocsAux (acc : List (String × List DocRecord)) :
    List DocRecord → Except String (List (String × List DocRecord))
  | [] => .ok acc
  | d :: ds =>
    match insertGroupE acc (sectionKey d) d with
    | .error e => .error e
    | .ok acc' => groupDocsAux acc' ds

/-- The `documentation.reduce(...)` of `generateTableOfContents` (lines
381-386), with the `TypeError` thrown on `Object.prototype` section labels
as an error outcome. -/
def groupDocsE (docs : List DocRecord) :
    Except String (List (String × List DocRecord)) :=
  groupDocsAux [] docs

/-- Numeric value of a digit string (no sign, no overflow; callers ensure all
characters are digits). -/
def digitsToNat (s : String) : Nat :=
  s.data.foldl (fun n c => n * 10 + (c.toNat - 48)) 0

/-- Whether `s` is an ECMAScript array index: the canonical base-10 form of an
integer `0 ≤ n < 2^32 - 1`. -/
def isArrayIndexKey (s : String) : Bool :=
  !s.data.isEmpty && s.data.all (·.isDigit) &&
    (s == "0" || s.data.head? != some '0') && digitsToNat s < 4294967295

/-- Insert into a list sorted by ascending `digitsToNat` of the key. -/
def insertByNat (p : String × List DocRecord) :
    List (String × List DocRecord) → List (String × List DocRecord)
  | [] => [p]
  | q :: rest =>
    if digitsToNat p.1 ≤ digitsToNat q.1 then p :: q :: rest
    else q :: insertByNat p rest

/-- Sort entries by ascending numeric key value. -/
def sortByNat (l : List (String × List DocRecord)) :
    List (String × List DocRecord) :=
  l.foldr insertByNat []

/-- ECMAScript own-property enumeration order applied to the accumulator:
array-index keys first in ascending numeric order, then the other keys in
insertion order.  This is the order `Object.entries` delivers. -/
def jsEntries (acc : List (String × List DocRecord)) :
    List (String × List DocRecord) :=
  sortByNat (acc.filter fun p => isArrayIndexKey p.1) ++
    acc.filter fun p => !isArrayIndexKey p.1

/-- The section/records sequence that `generateTableOfContents` iterates:
`Object.entries(documentation.reduce(...))`. -/
def tocEntries (docs : List DocRecord) : List (String × List DocRecord) :=
  jsEntries (groupDocs docs)

/-! ## HTML generation (pure string builders, lines 359-504) -/

/-- `generateHeader` (lines 359-369). -/
def generateHeader : String :=
  "\n    <div id=\"header\">\n      <h1><a href=\"" ++ BASE_URL ++
    "\">three.js</a></h1>\n      <div id=\"sections\">\n        <span class=\"selected\">docs</span>\n      </div>\n      <div id=\"expandButton\"></div>\n    </div>\n  "

/-- `generateSearch` (lines 371-378). -/
def generateSearch : String :=
  "\n    <div id=\"inputWrapper\">\n      <input type=\"text\" id=\"filterInput\" placeholder=\"Search\" autocorrect=\"off\" autocapitalize=\"off\" spellcheck=\"false\" />\n      <div id=\"clearSearchButton\"></div>\n    </div>\n  "

/-- The `<li>` item rendered for one record in the table of contents. -/
def tocItem (d : DocRecord) : String :=
  "\n            <li>\n              <a href=\"#" ++ encodeURIComponent d.title ++
    "\">" ++ d.title ++ "</a>\n            </li>\n          "

/-- The markup rendered for one section of the table of contents. -/
def tocSection (p : String × List DocRecord) : String :=
  "\n      <h2>" ++ p.1 ++
    "</h2>\n      <div class=\"subsection\">\n        <ul>\n          " ++
    String.join (p.2.map tocItem) ++ "\n        </ul>\n      </div>\n    "

/-- `generateTableOfContents` (lines 380-408). -/
def generateTableOfContents (docs : List DocRecord) : String :=
  String.join ((tocEntries docs).map tocSection)

/-- `generateContent` (lines 410-420): one wrapper `div.manual` per record, in
input order, with id the escaped title. -/
def generateContent (docs : List DocRecord) : String :=
  String.join (docs.map fun d =>
    "\n      <div class=\"manual\" id=\"" ++ encodeURIComponent d.title ++
      "\">\n        " ++ d.content ++ "\n      </div>\n    ")

/-- `generateScript` (lines 422-458), a fixed string. -/
def generateScript : String :=
  "\n    <script>\n      // Panel functionality\n      const panel = document.getElementById('panel');\n      const expandButton = document.getElementById('expandButton');\n      const panelScrim = document.getElementById('panelScrim');\n      const filterInput = document.getElementById('filterInput');\n      const clearSearchButton = document.getElementById('clearSearchButton');\n\n      expandButton.onclick = function(event) \x7b\n        event.preventDefault();\n        panel.classList.toggle('open');\n      \x7d;\n\n      panelScrim.onclick = function(event) \x7b\n        event.preventDefault();\n        panel.classList.toggle('open');\n      \x7d;\n\n      filterInput.onfocus = function() \x7b\n        panel.classList.add('searchFocused');\n      \x7d;\n\n      filterInput.onblur = function() \x7b\n        if (filterInput.value === '') \x7b\n          panel.classList.remove('searchFocused');\n        \x7d\n      \x7d;\n\n      clearSearchButton.onclick = function() \x7b\n        filterInput.value = '';\n        filterInput.focus();\n      \x7d;\n    </script>\n  "

/-- `generateHead` (lines 475-485). -/
def generateHead : String :=
  "\n    <meta charset=\"UTF-8\">\n    <meta name=\"viewport\" content=\"width=device-width, user-scalable=no, minimum-scale=1.0, maximum-scale=1.0\">\n    <title>Three.js Documentation</title>\n    <link rel=\"shortcut icon\" href=\"" ++
    BASE_URL ++
    "/files/favicon_white.ico\" media=\"(prefers-color-scheme: dark)\"/>\n    <link rel=\"shortcut icon\" href=\"" ++
    BASE_URL ++
    "/files/favicon.ico\" media=\"(prefers-color-scheme: light)\" />\n    <link rel=\"stylesheet\" type=\"text/css\" href=\"" ++
    BASE_URL ++
    "/docs/page.css\">\n    <script src=\"https://cdn.jsdelivr.net/gh/google/code-prettify@master/loader/run_prettify.js\"></script>\n  "

/-- `generateBody` (lines 487-504). -/
def generateBody (docs : List DocRecord) : String :=
  "\n    <div id=\"panel\">\n      " ++ generateHeader ++
    "\n      <div id=\"panelScrim\"></div>\n      <div id=\"contentWrapper\">\n        " ++
    generateSearch ++ "\n        <div id=\"content\">\n          " ++
    generateTableOfContents docs ++
    "\n        </div>\n      </div>\n    </div>\n    <div id=\"viewer\">\n      " ++
    generateContent docs ++ "\n    </div>\n    " ++ generateScript ++ "\n  "

/-- `generateHTML` (lines 461-473). -/
def generateHTML (docs : List DocRecord) : String :=
  "\n    <!DOCTYPE html>\n    <html lang=\"en\">\n      <head>\n        " ++
    generateHead ++ "\n      </head>\n      <body>\n        " ++
    generateBody docs ++ "\n      </body>\n    </html>\n  "

/-- `generateTableOfContents` with the reduce's `TypeError` propagating: the
markup when the grouping succeeds, the thrown error otherwise. -/
def generateTableOfContentsE (docs : List DocRecord) : Except String String :=
  (groupDocsE docs).map fun acc => String.join ((jsEntries acc).map tocSection)

/-- `generateBody` with the exception thrown inside its
`generateTableOfContents` template substitution propagating. -/
def generateBodyE (docs : List DocRecord) : Except String String :=
  (generateTableOfContentsE docs).map fun toc =>
    "\n    <div id=\"panel\">\n      " ++ generateHeader ++
      "\n      <div id=\"panelScrim\"></div>\n      <div id=\"contentWrapper\">\n        " ++
      generateSearch ++ "\n        <div id=\"content\">\n          " ++
      toc ++
      "\n        </div>\n      </div>\n    </div>\n    <div id=\"viewer\">\n      " ++
      generateContent docs ++ "\n    </div>\n    " ++ generateScript ++ "\n  "

/-- `generateHTML` with the exception propagating. -/
def generateHTMLE (docs : List DocRecord) : Except String String :=
  (generateBodyE docs).map fun body =>
    "\n    <!DOCTYPE html>\n    <html lang=\"en\">\n      <head>\n        " ++
      generateHead ++ "\n      </head>\n      <body>\n        " ++
      body ++ "\n      </body>\n    </html>\n  "

/-! ## Anchor targets and wrapper ids -/

/-- The anchor targets (the `href` values after `#`) emitted by
`generateTableOfContents`, read off the same section/record iteration that
produces the markup. -/
def tocAnchors (docs : List DocRecord) : List String :=
  (tocEntries docs).flatMap fun p => p.2.map fun d => encodeURIComponent d.title

/-- The wrapper ids emitted by `generateContent`, in input order. -/
def viewerIds (docs : List DocRecord) : List String :=
  docs.map fun d => encodeURIComponent d.title

/-- First-seen order of the (defaulted) section labels of `docs`. -/
def firstSeenSections (docs : List DocRecord) : List String :=
  docs.foldl (fun ks d =>
    if sectionKey d ∈ ks then ks else ks ++ [sectionKey d]) []

/-- The intended shape of the accumulator after reducing `xs`: one entry per
first-seen section key, holding the records of that key in input order. -/
def accOf (xs : List DocRecord) : List (String × List DocRecord) :=
  (firstSeenSections xs).map fun s => (s, xs.filter fun d => sectionKey d == s)

/-! ## Link discovery (`extractLinks`, lines 197-241)

Each iteration of the retry loop runs `page.goto`, `page.waitForSelector` and
`page.evaluate` inside one `try`.  The loop observes only success (the link
list) or the thrown error's message, so one attempt is modelled as an oracle
from the attempt number (the value of `attempts` at loop entry) to an
`Except` outcome. -/

def maxRetries : Nat := 2

/-- The `while (attempts < maxRetries)` loop of `extractLinks`.  `fuel`
bounds the remaining iterations (`extractLinks` passes `maxRetries`, which
suffices because `attempts` grows by one per continuing iteration); the first
component is `none` for the `undefined` fall-through return when the loop
condition fails.  Returns the outcome together with the final value of the
`attempts` counter. -/
def extractLinksLoop (oracle : Nat → Except String (List LinkRecord)) :
    Nat → Nat → Option (Except String (List LinkRecord)) × Nat
  | 0, attempts => (none, attempts)
  | fuel + 1, attempts =>
    if attempts < maxRetries then
      match oracle attempts with
      | .ok links => (some (.ok links), attempts)
      | .error msg =>
        if jsIncludes msg "429" then
          (some (.error "Rate limit exceeded"), attempts)
        else if attempts + 1 == maxRetries then (some (.error msg), attempts + 1)
        else extractLinksLoop oracle fuel (attempts + 1)
    else (none, attempts)

/-- `extractLinks` (lines 197-241): run the retry loop from `attempts = 0`. -/
def extractLinks (oracle : Nat → Except String (List LinkRecord)) :
    Option (Except String (List LinkRecord)) × Nat :=
  extractLinksLoop oracle maxRetries 0

/-! ## JSON (`JSON.parse` / `JSON.stringify`)

The cache stores `JSON.stringify(data, null, 2)` text and reads it back with
`JSON.parse`.  JSON values are modelled by `Json`; a JSON number is kept as
its raw lexeme (JavaScript would convert it to a float — no claim touches
numeric values, and the cached records contain only strings and booleans).
Strings are parsed through UTF-16 code units, as `JSON.parse` builds them: a
`\uXXXX` escape contributes one unit, surrogate pairs recombine into one code
point, and an unpaired surrogate (which a Lean `String` cannot hold, and
which never arises from `JSON.stringify` of a Lean-representable string) is
replaced by U+FFFD. -/

inductive Json where
  | null
  | bool (b : Bool)
  | num (lexeme : String)
  | str (s : String)
  | arr (elems : List Json)
  | obj (fields : List (String × Json))

/-- Whether a JSON number lexeme denotes zero (all mantissa digits `0`). -/
def jsonNumIsZero (s : String) : Bool :=
  (s.data.takeWhile fun c => !(c == 'e' || c == 'E')).all fun c =>
    !c.isDigit || c == '0'

/-- JavaScript truthiness of a parsed JSON value (`if (cached) ...`). -/
def jsTruthy : Json → Bool
  | .null => false
  | .bool b => b
  | .num s => !jsonNumIsZero s
  | .str s => !s.data.isEmpty
  | .arr _ => true
  | .obj _ => true

/-- JSON whitespace. -/
def isJsonWs (c : Char) : Bool :=
  c == ' ' || c == '\t' || c == '\n' || c == '\r'

def skipWs (cs : List Char) : List Char :=
  cs.dropWhile isJsonWs

/-- Value of a hexadecimal digit. -/
def hexVal? (c : Char) : Option Nat :=
  if 48 ≤ c.toNat ∧ c.toNat ≤ 57 then some (c.toNat - 48)
  else if 97 ≤ c.toNat ∧ c.toNat ≤ 102 then some (c.toNat - 87)
  else if 65 ≤ c.toNat ∧ c.toNat ≤ 70 then some (c.toNat - 55)
  else none

/-- The single-character JSON escapes. -/
def escDecode (c : Char) : Option Nat :=
  if c == '"' then some 34
  else if c == '\\' then some 92
  else if c == '/' then some 47
  else if c == 'b' then some 8
  else if c == 'f' then some 12
  else if c == 'n' then some 10
  else if c == 'r' then some 13
  else if c == 't' then some 9
  else none

/-- UTF-16 code units of one code point. -/
def utf16Units (c : Char) : List Nat :=
  let n := c.toNat
  if n < 0x10000 then [n]
  else [0xD800 + (n - 0x10000) / 0x400, 0xDC00 + (n - 0x10000) % 0x400]

/-- Parse a JSON string body (after the opening quote) into UTF-16 code
units; stops at the closing quote, rejects raw control characters and bad
escapes. -/
def parseStringUnits : List Char → Option (List Nat × List Char)
  | [] => none
  | c :: rest =>
    if c == '"' then some ([], rest)
    else if c == '\\' then
      match rest with
      | [] => none
      | e :: rest' =>
        if e == 'u' then
          match rest' with
          | h1 :: h2 :: h3 :: h4 :: rest2 =>
            match hexVal? h1, hexVal? h2, hexVal? h3, hexVal? h4 with
            | some a, some b, some c2, some d =>
              match parseStringUnits rest2 with
              | some (us, r) => some ((((a * 16 + b) * 16 + c2) * 16 + d) :: us, r)
              | none => none
            | _, _, _, _ => none
          | _ => none
        else
          match escDecode e with
          | some u =>
            match parseStringUnits rest' with
            | some (us, r) => some (u :: us, r)
            | none => none
          | none => none
    else if c.toNat < 0x20 then none
    else
      match parseStringUnits rest with
      | some (us, r) => some (utf16Units c ++ us, r)
      | none => none

/-- Recombine UTF-16 code units into characters; an unpaired surrogate
becomes U+FFFD (see the section comment). -/
def unitsToChars : List Nat → List Char
  | [] => []
  | [u] =>
    if 0xD800 ≤ u ∧ u < 0xE000 then [Char.ofNat 0xFFFD] else [Char.ofNat u]
  | u :: v :: us =>
    if 0xD800 ≤ u ∧ u < 0xDC00 then
      if 0xDC00 ≤ v ∧ v < 0xE000 then
        Char.ofNat (0x10000 + (u - 0xD800) * 0x400 + (v - 0xDC00)) ::
          unitsToChars us
      else Char.ofNat 0xFFFD :: unitsToChars (v :: us)
    else if 0xDC00 ≤ u ∧ u < 0xE000 then
      Char.ofNat 0xFFFD :: unitsToChars (v :: us)
    else Char.ofNat u :: unitsToChars (v :: us)

def unitsToString (us : List Nat) : String :=
  ⟨unitsToChars us⟩

/-- Parse a literal keyword (`true`, `false`, `null`). -/
def parseLit (lit : List Char) (v : Json) (cs : List Char) :
    Option (Json × List Char) :=
  if lit.isPrefixOf cs then some (v, cs.drop lit.length) else none

/-- Parse a JSON number per the JSON grammar, keeping the raw lexeme. -/
def parseNumber (cs : List Char) : Option (Json × List Char) :=
  let (sign, cs1) :=
    match cs with
    | c :: r => if c == '-' then ([c], r) else (([] : List Char), cs)
    | [] => ([], cs)
  let intPart := cs1.takeWhile Char.isDigit
  if intPart.isEmpty then none
  else if intPart.length > 1 && intPart.head? == some '0' then none
  else
    let cs2 := cs1.drop intPart.length
    let (fracPart, cs3) :=
      match cs2 with
      | c :: r =>
        if c == '.' then
          let ds := r.takeWhile Char.isDigit
          if ds.isEmpty then ([], cs2) else (c :: ds, r.drop ds.length)
        else ([], cs2)
      | [] => ([], cs2)
    if fracPart.isEmpty && !cs2.isEmpty && cs2.head? == some '.' then none
    else
      let (expPart, cs4) :=
        match cs3 with
        | c :: r =>
          if c == 'e' || c == 'E' then
            let (sgn, r2) :=
              match r with
              | s :: r' => if s == '+' || s == '-' then ([s], r') else ([], r)
              | [] => ([], r)
            let ds := r2.takeWhile Char.isDigit
            if ds.isEmpty then (([] : List Char), cs3)
            else (c :: (sgn ++ ds), r2.drop ds.length)
          else ([], cs3)
        | [] => ([], cs3)
      if !cs3.isEmpty && (cs3.head? == some 'e' || cs3.head? == some 'E') &&
          expPart.isEmpty then none
      else some (.num ⟨sign ++ intPart ++ fracPart ++ expPart⟩, cs4)

/-- JavaScript object-property assignment on an association list: an existing
key is overwritten in place, a new key is appended. -/
def objAssign (acc : List (String × Json)) (k : String) (v : Json) :
    List (String × Json) :=
  match acc with
  | [] => [(k, v)]
  | (k', v') :: rest =>
    if k' == k then (k', v) :: rest else (k', v') :: objAssign rest k v

/-- Duplicate-key semantics of `JSON.parse`: members are assigned in order,
later duplicates overwrite earlier values in place. -/
def objOfMembers (kvs : List (String × Json)) : List (String × Json) :=
  kvs.foldl (fun acc kv => objAssign acc kv.1 kv.2) []

mutual

/-- Parse one JSON value.  `fuel` dominates the nesting/member chain depth
(the entry point passes the input length plus one, which suffices since every
recursive call has consumed at least one character). -/
def parseValue : Nat → List Char → Option (Json × List Char)
  | 0, _ => none
  | fuel + 1, cs =>
    match cs with
    | [] => none
    | c :: rest =>
      if c == '"' then
        match parseStringUnits rest with
        | some (us, r) => some (.str (unitsToString us), r)
        | none => none
      else if c == Char.ofNat 123 then
        match skipWs rest with
        | [] => none
        | c2 :: r2 =>
          if c2 == Char.ofNat 125 then some (.obj [], r2)
          else
            match parseMembers fuel (c2 :: r2) with
            | some (kvs, r) => some (.obj (objOfMembers kvs), r)
            | none => none
      else if c == '[' then
        match skipWs rest with
        | [] => none
        | c2 :: r2 =>
          if c2 == ']' then some (.arr [], r2)
          else
            match parseElements fuel (c2 :: r2) with
            | some (vs, r) => some (.arr vs, r)
            | none => none
      else if c == 't' then parseLit ['t', 'r', 'u', 'e'] (.bool true) cs
      else if c == 'f' then parseLit ['f', 'a', 'l', 's', 'e'] (.bool false) cs
      else if c == 'n' then parseLit ['n', 'u', 'l', 'l'] .null cs
      else parseNumber cs

/-- Parse a non-empty member list of an object, up to and including the
closing brace. -/
def parseMembers : Nat → List Char → Option (List (String × Json) × List Char)
  | 0, _ => none
  | fuel + 1, cs =>
    match cs with
    | [] => none
    | c :: rest =>
      if c == '"' then
        match parseStringUnits rest with
        | none => none
        | some (us, r1) =>
          match skipWs r1 with
          | [] => none
          | c2 :: r2 =>
            if c2 == ':' then
              match parseValue fuel (skipWs r2) with
              | none => none
              | some (v, r3) =>
                match skipWs r3 with
                | [] => none
                | c3 :: r4 =>
                  if c3 == ',' then
                    match parseMembers fuel (skipWs r4) with
                    | some (kvs, r5) => some ((unitsToString us, v) :: kvs, r5)
                    | none => none
                  else if c3 == Char.ofNat 125 then
                    some ([(unitsToString us, v)], r4)
                  else none
            else none
      else none

/-- Parse a non-empty element list of an array, up to and including the
closing bracket. -/
def parseElements : Nat → List Char → Option (List Json × List Char)
  | 0, _ => none
  | fuel + 1, cs =>
    match parseValue fuel cs with
    | none => none
    | some (v, r1) =>
      match skipWs r1 with
      | [] => none
      | c :: r2 =>
        if c == ',' then
          match parseElements fuel (skipWs r2) with
          | some (vs, r3) => some (v :: vs, r3)
          | none => none
        else if c == ']' then some ([v], r2)
        else none

end

/-- `JSON.parse`: parse one value surrounded by optional whitespace,
requiring the whole text to be consumed; `none` models the thrown
`SyntaxError`. -/
def jsonParse (s : String) : Option Json :=
  match parseValue (s.data.length + 1) (skipWs s.data) with
  | some (v, rest) => if (skipWs rest).isEmpty then some v else none
  | none => none

/-- The escape `JSON.stringify` applies to one character inside a string
literal: quote, backslash and the short control escapes, `\u00XX` for other
control characters, everything else verbatim. -/
def jsonEscChar (c : Char) : List Char :=
  if c == '"' then ['\\', '"']
  else if c == '\\' then ['\\', '\\']
  else if c == Char.ofNat 8 then ['\\', 'b']
  else if c == Char.ofNat 9 then ['\\', 't']
  else if c == Char.ofNat 10 then ['\\', 'n']
  else if c == Char.ofNat 12 then ['\\', 'f']
  else if c == Char.ofNat 13 then ['\\', 'r']
  else if c.toNat < 0x20 then
    ['\\', 'u', '0', '0',
      (if c.toNat / 16 < 10 then Char.ofNat (48 + c.toNat / 16)
        else Char.ofNat (87 + c.toNat / 16)),
      (if c.toNat % 16 < 10 then Char.ofNat (48 + c.toNat % 16)
        else Char.ofNat (87 + c.toNat % 16))]
  else [c]

/-- A `JSON.stringify` string literal. -/
def jsonQuote (s : String) : String :=
  "\"" ++ ⟨s.data.flatMap jsonEscChar⟩ ++ "\""

/-! ## Cache store (lines 138-177) -/

/-- The persisted extraction result (`{title, content, hasMalformedHTML}`,
built at lines 279-283). -/
structure CachedPage where
  title : String
  content : String
  hasMalformedHTML : Bool
  deriving DecidableEq

/-- The JSON object value corresponding to a `CachedPage`, with the fields in
their creation order. -/
def encodeCachedPage (p : CachedPage) : Json :=
  .obj [("title", .str p.title), ("content", .str p.content),
    ("hasMalformedHTML", .bool p.hasMalformedHTML)]

/-- The exact text `JSON.stringify(data, null, 2)` produces for the flat
three-field record that is `saveToCache`'s only argument shape (the `result`
object of `extractContent`, lines 279-285): two-space indentation, one line
per member. -/
def stringifyCachedPage (p : CachedPage) : String :=
  "\x7b\n  \"title\": " ++ jsonQuote p.title ++ ",\n  \"content\": " ++
    jsonQuote p.content ++ ",\n  \"hasMalformedHTML\": " ++
    (if p.hasMalformedHTML then "true" else "false") ++ "\n\x7d"

/-- `getCacheKey` (lines 150-153): `path.join(CACHE_DIR,
hash(url) + "_v" + CACHE_VERSION + ".json")`.  The md5 digest of the
`crypto` library is an external call, abstracted as the `hashHex`
parameter. -/
def getCacheKey (hashHex : String → String) (url : String) : String :=
  CACHE_DIR ++ "/" ++ hashHex url ++ "_v" ++ CACHE_VERSION ++ ".json"

/-- The filesystem read oracle (`fs.readFile`): file contents or a thrown
error's message. -/
structure FS where
  read : String → Except String String

/-- `getFromCache` (lines 155-166): `null` when caching is disabled; compute
the key, read the file, `JSON.parse` the contents; any failure in the `try`
block (read error or parse error) is caught and becomes `null`. -/
def getFromCache (useCache : Bool) (hashHex : String → String) (fs : FS)
    (url : String) : Option Json :=
  if !useCache then none
  else
    match fs.read (getCacheKey hashHex url) with
    | .error _ => none
    | .ok data =>
      match jsonParse data with
      | some v => some v
      | none => none

/-- `saveToCache` (lines 168-177), as the list of `fs.writeFile`
(path, contents) events it issues: none when caching is disabled, otherwise
exactly one write of the pretty-printed JSON (a write failure is logged and
swallowed, which does not change the event issued). -/
def saveToCacheWrites (useCache : Bool) (hashHex : String → String)
    (url : String) (p : CachedPage) : List (String × String) :=
  if useCache then [(getCacheKey hashHex url, stringifyCachedPage p)] else []

/-! ## DOM fragments inside the frame

The in-page functions of `extractFrameContent` (lines 293-356) manipulate a
DOM subtree.  A node is an element (with the fields the code reads or
writes: `tagName` — stored uppercase, as the DOM reports it for HTML
elements —, the `id` and `class` attributes, `style.whiteSpace`, and the
child list) or a text node. -/

inductive Node where
  | elem (tag idAttr className whiteSpace : String) (children : List Node)
  | text (s : String)

def nodeTag : Node → String
  | .elem t _ _ _ _ => t
  | .text _ => ""

def nodeId : Node → String
  | .elem _ i _ _ _ => i
  | .text _ => ""

def nodeClass : Node → String
  | .elem _ _ c _ _ => c
  | .text _ => ""

def nodeWS : Node → String
  | .elem _ _ _ w _ => w
  | .text _ => ""

def nodeChildren : Node → List Node
  | .elem _ _ _ _ cs => cs
  | .text _ => []

mutual

/-- All strict descendants of a node in document (preorder) order, each with
the path (child-index sequence) leading to it, prefixed by `pfx`.  This is
the order a `querySelectorAll` snapshot lists matches in. -/
def descendantsFrom (pfx : List Nat) : Node → List (List Nat × Node)
  | .text _ => []
  | .elem _ _ _ _ cs => descendantsList pfx 0 cs

def descendantsList (pfx : List Nat) (i : Nat) :
    List Node → List (List Nat × Node)
  | [] => []
  | c :: cs =>
    ((pfx ++ [i], c) :: descendantsFrom (pfx ++ [i]) c) ++
      descendantsList pfx (i + 1) cs

end

/-- The node reached from `n` by the child-index path `p`. -/
def getAt : Node → List Nat → Option Node
  | n, [] => some n
  | .text _, _ :: _ => none
  | .elem _ _ _ _ cs, i :: p =>
    match cs[i]? with
    | some c => getAt c p
    | none => none

def tagAt (root : Node) (p : List Nat) : String :=
  match getAt root p with
  | some n => nodeTag n
  | none => ""

def classAt (root : Node) (p : List Nat) : String :=
  match getAt root p with
  | some n => nodeClass n
  | none => ""

def wsAt (root : Node) (p : List Nat) : String :=
  match getAt root p with
  | some n => nodeWS n
  | none => ""

def modifyChild : List Node → Nat → (Node → Node) → List Node
  | [], _, _ => []
  | c :: cs, 0, f => f c :: cs
  | c :: cs, i + 1, f => c :: modifyChild cs i f

/-- In-place mutation of the node at path `p` (identity on a missing
path). -/
def modifyAt (f : Node → Node) : Node → List Nat → Node
  | n, [] => f n
  | .text s, _ :: _ => .text s
  | .elem t i c w cs, j :: p =>
    .elem t i c w (modifyChild cs j fun ch => modifyAt f ch p)

/-- Path (relative to `n`) of `n.querySelector('code')`: the first descendant
element with tag `CODE`, in document order. -/
def firstCodeRel (n : Node) : Option (List Nat) :=
  ((descendantsFrom [] n).find? fun pe => nodeTag pe.2 == "CODE").map Prod.fst

/-- `\w` of a JavaScript regex without the unicode flag. -/
def isWordChar (c : Char) : Bool :=
  c.isAlphanum || c == '_'

/-- Try to match `language-(\w+)` at the start of `cs`. -/
def langMatchAt (cs : List Char) : Option String :=
  if ['l', 'a', 'n', 'g', 'u', 'a', 'g', 'e', '-'].isPrefixOf cs then
    let w := (cs.drop 9).takeWhile isWordChar
    if w.isEmpty then none else some ⟨w⟩
  else none

/-- First match of `/language-(\w+)/` in `cs` (positions scanned left to
right, as a regex engine does). -/
def findLangIn : List Char → Option String
  | [] => none
  | c :: cs =>
    match langMatchAt (c :: cs) with
    | some w => some w
    | none => findLangIn cs

/-- `code.className?.match(/language-(\w+)/)?.[1] || 'javascript'`
(line 312): the capture of the first regex match anywhere in the class
string — not necessarily a whole class token — defaulting to
`javascript`. -/
def langOf (className : String) : String :=
  (findLangIn className.data).getD "javascript"

/-- The mutation both branches of `processCodeBlocks` perform on their target
element: replace the class and set `style.whiteSpace = 'pre'`. -/
def setClassWS (cls : String) : Node → Node
  | .elem t i _ _ cs => .elem t i cls "pre" cs
  | .text s => .text s

/-- One iteration of the `forEach` of `processCodeBlocks` (lines 308-320),
acting on the current tree `root`; `pe` is the snapshot entry (path and
originally captured node — the tree structure and tags never change, so the
snapshot stays valid).  A `PRE` rewrites its first descendant `code` (or
itself when it has none): the new class is computed from that element's
current class.  A `CODE` whose direct parent is not a `pre` gets class
`inline`. -/
def processOne (root : Node) (pe : List Nat × Node) : Node :=
  if nodeTag pe.2 == "PRE" then
    let tpath :=
      match firstCodeRel pe.2 with
      | some rel => pe.1 ++ rel
      | none => pe.1
    modifyAt (fun t => setClassWS ("prettyprint lang-" ++ langOf (nodeClass t)) t)
      root tpath
  else if nodeTag pe.2 == "CODE" then
    if tagAt root pe.1.dropLast == "PRE" then root
    else modifyAt (setClassWS "inline") root pe.1
  else root

/-- The static `querySelectorAll('pre, code')` snapshot: the descendant
elements with tag `pre` or `code`, in document order, with their paths. -/
def codeSnapshot (content : Node) : List (List Nat × Node) :=
  (descendantsFrom [] content).filter fun pe =>
    nodeTag pe.2 == "PRE" || nodeTag pe.2 == "CODE"

/-- `processCodeBlocks` (lines 308-320): fold the per-element mutation over
the static `querySelectorAll('pre, code')` snapshot, in document order. -/
def processCodeBlocks (content : Node) : Node :=
  (codeSnapshot content).foldl processOne content

/-- The path of the element whose class a `pre` element at path `p`
rewrites: its first descendant `code` if any, else the `pre` itself
(`el.querySelector('code') || el`, line 311). -/
def preTarget (root : Node) (p : List Nat) : List Nat :=
  match getAt root p with
  | some n =>
    match firstCodeRel n with
    | some rel => p ++ rel
    | none => p
  | none => p

/-- Whether the node at path `q` is a strict descendant of the node at path
`p` (decidably, for concrete checking): `p` is a proper initial segment of
`q`. -/
def strictUnder (p q : List Nat) : Bool :=
  p.length < q.length && q.take p.length == p

/-- Every node of the tree with its path: the root and all strict
descendants. -/
def allPathNodes (root : Node) : List (List Nat × Node) :=
  (([] : List Nat), root) :: descendantsFrom [] root

/-- The well-formedness under which the claim's per-element description of
`processCodeBlocks` is accurate: no `pre` nested inside another `pre`, and
every `code` inside a `pre` a direct child of it.  (Violations make the
snapshot iteration overwrite earlier rewrites; see the counterexample
discussion in the C5 entry.) -/
def WfCodeTree (root : Node) : Prop :=
  (∀ pe ∈ allPathNodes root, ∀ qe ∈ allPathNodes root,
    nodeTag pe.2 = "PRE" → nodeTag qe.2 = "PRE" →
      strictUnder pe.1 qe.1 = false) ∧
  (∀ pe ∈ allPathNodes root, ∀ qe ∈ allPathNodes root,
    nodeTag pe.2 = "PRE" → nodeTag qe.2 = "CODE" →
      strictUnder pe.1 qe.1 = true → qe.1.length = pe.1.length + 1)

/-- The path a snapshot entry writes to, as determined by the original tree
(`none`: the entry writes nothing — a `code` directly inside a `pre`). -/
def writeTargetOf (root : Node) (pe : List Nat × Node) : Option (List Nat) :=
  if nodeTag pe.2 == "PRE" then
    some (match firstCodeRel pe.2 with
      | some rel => pe.1 ++ rel
      | none => pe.1)
  else if nodeTag pe.2 == "CODE" then
    if tagAt root pe.1.dropLast == "PRE" then none else some pe.1
  else none

/-- The class-rewriting function a snapshot entry applies to its target's
current class. -/
def writeClassOf (pe : List Nat × Node) : String → String :=
  if nodeTag pe.2 == "PRE" then fun cls => "prettyprint lang-" ++ langOf cls
  else fun _ => "inline"

/-! ## Serialization (`innerHTML` / `textContent`) -/

def escapeHtmlText (s : String) : String :=
  ⟨s.data.flatMap fun c =>
    if c == '&' then ['&', 'a', 'm', 'p', ';']
    else if c == '<' then ['&', 'l', 't', ';']
    else if c == '>' then ['&', 'g', 't', ';']
    else [c]⟩

def escapeHtmlAttr (s : String) : String :=
  ⟨s.data.flatMap fun c =>
    if c == '&' then ['&', 'a', 'm', 'p', ';']
    else if c == '"' then ['&', 'q', 'u', 'o', 't', ';']
    else [c]⟩

def lowerName (s : String) : String :=
  ⟨s.data.map Char.toLower⟩

mutual

def outerHTML : Node → String
  | .text s => escapeHtmlText s
  | .elem t idA cls ws cs =>
    "<" ++ lowerName t ++
      (if idA == "" then "" else " id=\"" ++ escapeHtmlAttr idA ++ "\"") ++
      (if cls == "" then "" else " class=\"" ++ escapeHtmlAttr cls ++ "\"") ++
      (if ws == "" then ""
        else " style=\"white-space: " ++ ws ++ ";\"") ++
      ">" ++ innerHTMLList cs ++ "</" ++ lowerName t ++ ">"

def innerHTMLList : List Node → String
  | [] => ""
  | c :: cs => outerHTML c ++ innerHTMLList cs

end

def innerHTML (n : Node) : String :=
  innerHTMLList (nodeChildren n)

mutual

def textContent : Node → String
  | .text s => s
  | .elem _ _ _ _ cs => textContentList cs

def textContentList : List Node → String
  | [] => ""
  | c :: cs => textContent c ++ textContentList cs

end

/-! ## Frame content extraction (`extractFrameContent`, lines 293-356) -/

def isHtmlWs (c : Char) : Bool :=
  c == ' ' || c == '\t' || c == '\n' || c == '\x0c' || c == '\r'

def classTokensAux : List Char → List Char → List String
  | [], acc => if acc.isEmpty then [] else [⟨acc.reverse⟩]
  | c :: cs, acc =>
    if isHtmlWs c then
      if acc.isEmpty then classTokensAux cs []
      else (⟨acc.reverse⟩ : String) :: classTokensAux cs []
    else classTokensAux cs (c :: acc)

/-- The whitespace-separated tokens of a `class` attribute. -/
def classTokens (s : String) : List String :=
  classTokensAux s.data []

/-- `document.querySelector('.manual-content')` within the frame, the frame
document modeled by its body element: the first element (body or descendant,
in document order) whose class attribute contains the token
`manual-content`. -/
def findManualContent (body : Node) : Option Node :=
  (((([] : List Nat), body) :: descendantsFrom [] body).find? fun pe =>
    (classTokens (nodeClass pe.2)).contains "manual-content").map Prod.snd

/-- The fallback of `findContent` (lines 299-305): the direct element
children of `body` matching
`body > *:not(script):not(link):not(style):not(#button)`, assembled into a
fresh `div` in original order (`cloneNode(true)` deep-copies each, which is
the identity on pure trees). -/
def fallbackContent (body : Node) : Option Node :=
  let elems := (nodeChildren body).filter fun c =>
    !(nodeTag c == "") && !(nodeTag c == "SCRIPT") && !(nodeTag c == "LINK") &&
      !(nodeTag c == "STYLE") && !(nodeId c == "button")
  if elems.isEmpty then none else some (.elem "DIV" "" "" "" elems)

/-- `findContent` (lines 295-306). -/
def findContent (body : Node) : Option Node :=
  match findManualContent body with
  | some c => some c
  | none => fallbackContent body

/-- The fixed set of known-bad tag adjacencies (line 343). -/
def malformedPatterns : List String :=
  ["</div></p>", "<p></div>", "<div></p>"]

inductive FrameEvalResult where
  | errorNoContent
  | ok (html text : String) (hasMalformedHTML : Bool)
  deriving DecidableEq

/-- The function evaluated in the frame by `extractFrameContent`
(lines 294-353): find the content region, normalize code blocks, fix
root-relative resource paths — a no-op here, because the reflected
`el.src` / `el.href` properties the code tests (lines 322-331) are resolved
absolute URLs, which never start with `/`, so the rewrite never fires and the
model carries no such attributes — then check the serialized inner HTML for
the known-bad substrings (`content.innerHTML.includes(pattern)`,
lines 342-346). -/
def extractFrameEval (body : Node) : FrameEvalResult :=
  match findContent body with
  | none => .errorNoContent
  | some content =>
    let processed := processCodeBlocks content
    let html := innerHTML processed
    .ok html (textContent processed)
      (malformedPatterns.any fun pat => jsIncludes html pat)

/-! ## Content extraction (`extractContent`, lines 244-291) -/

inductive BrowserCall where
  | goto (url : String)
  | waitForSelector (sel : String)
  | query (sel : String)
  | contentFrame
  | frameWaitForSelector (sel : String)
  | evaluate
  deriving DecidableEq

/-- The browser session's responses for one page visit: outcomes of
`page.goto`, `page.waitForSelector('iframe')`, whether `page.$('iframe')`
and `frameHandle.contentFrame()` return handles, the outcome of
`frame.waitForSelector('body')`, and the frame document body that the
in-page evaluation reads. -/
structure Session where
  gotoResult : Except String Unit
  waitIframeResult : Except String Unit
  hasIframeHandle : Bool
  hasContentFrame : Bool
  bodyWaitResult : Except String Unit
  frameBody : Node

/-- The observable outcome of one `extractContent` call: the returned value
or thrown error message, the browser calls issued (navigation, selector
waits, handle queries, in-page evaluation), and the cache writes issued. -/
structure ExtractResult where
  result : Except String Json
  calls : List BrowserCall
  writes : List (String × String)

/-- JavaScript truthiness of the `getFromCache` result
(`if (cached) return cached`). -/
def truthyHit : Option Json → Bool
  | some j => jsTruthy j
  | none => false

/-- The cache-miss path of `extractContent` (lines 253-290): navigate, wait
for the iframe, take its handle and content frame, wait for the frame body,
evaluate the extraction function, package `{title, content,
hasMalformedHTML}`, save it to the cache (best effort) and return it; each
failure is thrown with the message the code builds. -/
def extractContentMiss (useCache : Bool) (hashHex : String → String)
    (sess : Session) (url title : String) : ExtractResult :=
  match sess.gotoResult with
  | .error e => ⟨.error e, [.goto url], []⟩
  | .ok _ =>
    match sess.waitIframeResult with
    | .error e =>
      ⟨.error ("Timeout waiting for iframe: " ++ e),
        [.goto url, .waitForSelector "iframe"], []⟩
    | .ok _ =>
      if !sess.hasIframeHandle then
        ⟨.error "No iframe found",
          [.goto url, .waitForSelector "iframe", .query "iframe"], []⟩
      else if !sess.hasContentFrame then
        ⟨.error "Failed to get iframe content",
          [.goto url, .waitForSelector "iframe", .query "iframe",
            .contentFrame], []⟩
      else
        match sess.bodyWaitResult with
        | .error e =>
          ⟨.error e,
            [.goto url, .waitForSelector "iframe", .query "iframe",
              .contentFrame, .frameWaitForSelector "body"], []⟩
        | .ok _ =>
          match extractFrameEval sess.frameBody with
          | .errorNoContent =>
            ⟨.error "No content found",
              [.goto url, .waitForSelector "iframe", .query "iframe",
                .contentFrame, .frameWaitForSelector "body", .evaluate], []⟩
          | .ok html _text malformed =>
            let page : CachedPage := ⟨title, html, malformed⟩
            ⟨.ok (encodeCachedPage page),
              [.goto url, .waitForSelector "iframe", .query "iframe",
                .contentFrame, .frameWaitForSelector "body", .evaluate],
              saveToCacheWrites useCache hashHex url page⟩

/-- `extractContent` (lines 244-291): consult the cache first; a truthy hit
returns immediately, otherwise run the miss path. -/
def extractContent (useCache : Bool) (hashHex : String → String) (fs : FS)
    (sess : Session) (url title : String) : ExtractResult :=
  if truthyHit (getFromCache useCache hashHex fs url) then
    ⟨.ok ((getFromCache useCache hashHex fs url).getD .null), [], []⟩
  else extractContentMiss useCache hashHex sess url title

/-! ## Pipeline orchestration (`scrapeDocumentation`, lines 507-568) -/

/-- Property lookup on a parsed JSON value: `undefined` (here `none`) when
absent or when the value is not an object. -/
def jsGetField (j : Json) (k : String) : Option Json :=
  match j with
  | .obj kvs => (kvs.find? fun kv => kv.1 == k).map Prod.snd
  | _ => none

mutual

/-- ECMAScript `String(v)` of a parsed JSON value, as template interpolation
performs it (numeric reformatting is not modeled — the scraper's own records
hold no numbers). -/
def jsDisplay : Json → String
  | .null => "null"
  | .bool b => if b then "true" else "false"
  | .num s => s
  | .str s => s
  | .arr vs => jsDisplayList vs
  | .obj _ => "[object Object]"

/-- `Array.prototype.join(',')` with element coercion (`null` displays
empty). -/
def jsDisplayList : List Json → String
  | [] => ""
  | [v] => jsDisplayElem v
  | v :: vs => jsDisplayElem v ++ "," ++ jsDisplayList vs

def jsDisplayElem : Json → String
  | .null => ""
  | v => jsDisplay v

end

/-- The string `content.content` contributes to the pushed `DocRecord`
(line 543): the `content` property of the extraction result, coerced as the
output template would coerce it (`undefined` when absent). -/
def jsContentField (j : Json) : String :=
  match jsGetField j "content" with
  | some v => jsDisplay v
  | none => "undefined"

/-- `path.join(config.OUTPUT_DIR, 'index.html')` (line 558). -/
def outputPath : String :=
  OUTPUT_DIR ++ "/" ++ "index.html"

/-- The per-page loop of `scrapeDocumentation` (lines 539-547):
`extractContent` each link in order, pushing
`{title: link.text, content: content.content, section: link.section ||
'Reference'}`; a failure aborts the loop and propagates.  Returns the built
record list (or the error), the urls for which extraction was invoked, and
all cache writes issued. -/
def extractLoop (useCache : Bool) (hashHex : String → String) (fs : FS)
    (sessionFor : String → Session) :
    List LinkRecord →
      Except String (List DocRecord) × List String × List (String × String)
  | [] => (.ok [], [], [])
  | l :: ls =>
    let r := extractContent useCache hashHex fs (sessionFor l.url) l.url l.text
    match r.result with
    | .error e => (.error e, [l.url], r.writes)
    | .ok j =>
      let doc : DocRecord :=
        ⟨l.text, jsContentField j,
          if l.«section» == "" then "Reference" else l.«section»⟩
      match extractLoop useCache hashHex fs sessionFor ls with
      | (res, urls, ws) =>
        (res.map fun docs => doc :: docs, l.url :: urls, r.writes ++ ws)

/-- The observable outcome of one `scrapeDocumentation` run: the result, the
`fs.mkdir` calls, whether the cache directory was removed, the urls passed to
`extractContent`, and the `fs.writeFile` events (cache writes and the final
output write). -/
structure RunResult where
  outcome : Except String Unit
  mkdirs : List String
  removedCacheDir : Bool
  extractedUrls : List String
  writes : List (String × String)

/-- `scrapeDocumentation` (lines 507-568): initialize the cache directory
(clearing it first when the clear-cache flag is set, and then exiting early),
discover links, process the first `DEV_PAGE_LIMIT` of them in dev mode (all
otherwise), assemble the HTML and write the single output file.  A discovery
or extraction failure aborts the run, as does the grouping `TypeError` of
`generateHTML` on an `Object.prototype` section label — the output file is
then never written (the `fs.mkdir(OUTPUT_DIR)` of line 555 is also not
reached).  (The `none` discovery outcome is the
`undefined` fall-through of the retry loop, unreachable from `attempts = 0`;
the subsequent `links.slice` would throw a `TypeError`.) -/
def scrapeDocumentation (clearCache devMode useCache : Bool)
    (hashHex : String → String) (fs : FS)
    (linksOracle : Nat → Except String (List LinkRecord))
    (sessionFor : String → Session) : RunResult :=
  if clearCache then ⟨.ok (), [CACHE_DIR], true, [], []⟩
  else
    match extractLinks linksOracle with
    | (some (.ok links), _) =>
      let pagesToProcess := if devMode then links.take DEV_PAGE_LIMIT else links
      match extractLoop useCache hashHex fs sessionFor pagesToProcess with
      | (.ok docs, urls, ws) =>
        match generateHTMLE docs with
        | .ok html =>
          ⟨.ok (), [CACHE_DIR, OUTPUT_DIR], false, urls,
            ws ++ [(outputPath, html)]⟩
        | .error e => ⟨.error e, [CACHE_DIR], false, urls, ws⟩
      | (.error e, urls, ws) => ⟨.error e, [CACHE_DIR], false, urls, ws⟩
    | (some (.error e), _) => ⟨.error e, [CACHE_DIR], false, [], []⟩
    | (none, _) =>
      ⟨.error "TypeError: links is undefined", [CACHE_DIR], false, [], []⟩

/-- The `DocRecord` produced for link `l` when its page is served from the
cache: title from the link text, content the `content` property of the
cached JSON, section defaulted. -/
def cachedDocOf (hashHex : String → String) (fs : FS) (l : LinkRecord) :
    DocRecord :=
  ⟨l.text, jsContentField ((getFromCache true hashHex fs l.url).getD .null),
    if l.«section» == "" then "Reference" else l.«section»⟩

/-! ## Concrete inputs used by witnesses and counterexamples -/

/-- Input exhibiting the `Object.entries` enumeration-order exception: the
section labels in first-seen order are `["B", "1"]`. -/
def c2CexDocs : List DocRecord :=
  [⟨"t1", "c1", "B"⟩, ⟨"t2", "c2", "1"⟩]

/-- A record whose section label is an `Object.prototype` property name: the
grouping reduce throws on it. -/
def c1CexDocs : List DocRecord :=
  [⟨"t", "c", "toString"⟩]

/-- Ordinary records (one with a defaulted section) on which the grouping
succeeds. -/
def c1WitnessDocs : List DocRecord :=
  [⟨"Vector3", "c1", "Math"⟩, ⟨"Matrix4", "c2", "Math"⟩, ⟨"Scene", "c3", ""⟩]

/-- A single discovered link whose section is an `Object.prototype` property
name. -/
def c7CexLinks : List LinkRecord :=
  [⟨"https://threejs.org/docs/pX", "tX", "pX", "toString"⟩]

/-- A `pre` whose code child's class contains `language-` only inside the
larger token `xlanguage-ruby`. -/
def c5CexTree : Node :=
  .elem "DIV" "" "" "" [.elem "PRE" "" "" ""
    [.elem "CODE" "" "xlanguage-ruby" "" [.text "x"]]]

/-- A content region with a block code element (direct child of its `pre`),
an inline code element, and a `pre` without a code child. -/
def c5WitnessTree : Node :=
  .elem "DIV" "" "" "" [
    .elem "PRE" "" "" "" [.elem "CODE" "" "language-python" "" [.text "x"]],
    .elem "CODE" "" "" "" [.text "y"],
    .elem "PRE" "" "language-go" "" [.text "z"]]

/-- A frame body whose content region serializes to `<p><div></div></p>`,
which contains the bad adjacency `</div></p>`. -/
def c6TreeBad : Node :=
  .elem "BODY" "" "" "" [.elem "DIV" "" "manual-content" ""
    [.elem "P" "" "" "" [.elem "DIV" "" "" "" []]]]

/-- A frame body whose content region contains none of the bad
substrings. -/
def c6TreeOk : Node :=
  .elem "BODY" "" "" "" [.elem "DIV" "" "manual-content" "" [.text "hello"]]

/-- A session whose responses are never consulted (used under cache hits). -/
def idleSession : Session :=
  ⟨.ok (), .ok (), true, true, .ok (), .text ""⟩

/-- A filesystem whose every read returns a truthy cached record. -/
def allHitFS : FS :=
  ⟨fun _ => .ok "\x7b\"content\":\"x\"\x7d"⟩

/-- Twenty discovered links. -/
def c7Links : List LinkRecord :=
  (List.range 20).map fun i =>
    ⟨"https://threejs.org/docs/p" ++ toString i, "t" ++ toString i,
      "p" ++ toString i, "S"⟩

/-- A concrete cached page exercising escapes: a quote, a backslash, a
newline, a tab, a control character, a non-ASCII BMP character and an
astral (surrogate-pair) character. -/
def c10Page : CachedPage :=
  ⟨"Vector3 \"docs\"", "a\\b\n\tc\x01é😀", true⟩

/-- A stand-in for the md5 hex digest. -/
def c10Hash : String → String :=
  fun _ => "d41d8cd98f00b204e9800998ecf8427e"

/-- A filesystem holding exactly what `saveToCache` wrote for `c10Page`
under `c10Url`; every other path is missing. -/
def c10Url : String :=
  "https://threejs.org/docs/#api/en/math/Vector3"

def c10FS : FS :=
  ⟨fun path =>
    if path = getCacheKey c10Hash c10Url then
      .ok (stringifyCachedPage c10Page)
    else .error "ENOENT"⟩

/-- Input of the claim's own example: section labels in input order
`[A, B, A, C]`. -/
def c2ExampleDocs : List DocRecord :=
  [⟨"t1", "c1", "A"⟩, ⟨"t2", "c2", "B"⟩, ⟨"t3", "c3", "A"⟩, ⟨"t4", "c4", "C"⟩]

/-- Structural induction over `Node` trees with a membership hypothesis for
the children. -/
def nodeInduction (motive : Node → Prop)
    (htext : ∀ s, motive (.text s))
    (helem : ∀ t i c w cs, (∀ x ∈ cs, motive x) → motive (.elem t i c w cs)) :
    ∀ n, motive n
  | .text s => htext s
  | .elem t i c w cs =>
    helem t i c w cs fun x hx => nodeInduction motive htext helem x
decreasing_by
  have h := List.sizeOf_lt_of_mem hx
  simp [Node.elem.sizeOf_spec]
  omega

/-! ## Lemmas: characterization of the grouping -/

theorem firstSeenSections_append_single (xs : List DocRecord) (d : DocRecord) :
    firstSeenSections (xs ++ [d]) =
      if sectionKey d ∈ firstSeenSections xs then
        firstSeenSections xs
      else firstSeenSections xs ++ [sectionKey d] := by
  simp [firstSeenSections, List.foldl_append]

theorem mem_firstSeenSections_foldl (xs : List DocRecord) (s : String) :
    ∀ acc : List String,
      (s ∈ xs.foldl (fun ks d =>
        if sectionKey d ∈ ks then ks else ks ++ [sectionKey d]) acc ↔
        s ∈ acc ∨ ∃ d ∈ xs, sectionKey d = s) := by
  induction xs with
  | nil => simp
  | cons x xs ih =>
    intro acc
    simp only [List.foldl_cons, ih]
    by_cases hc : sectionKey x ∈ acc
    · rw [if_pos hc]
      constructor
      · rintro (h | ⟨d, hd, hkey⟩)
        · exact Or.inl h
        · exact Or.inr ⟨d, List.mem_cons_of_mem _ hd, hkey⟩
      · rintro (h | ⟨d, hd, hkey⟩)
        · exact Or.inl h
        · rcases List.mem_cons.1 hd with rfl | hd
          · exact Or.inl (hkey ▸ hc)
          · exact Or.inr ⟨d, hd, hkey⟩
    · rw [if_neg hc]
      simp only [List.mem_append, List.mem_singleton]
      constructor
      · rintro ((h | rfl) | ⟨d, hd, hkey⟩)
        · exact Or.inl h
        · exact Or.inr ⟨x, List.mem_cons_self _ _, rfl⟩
        · exact Or.inr ⟨d, List.mem_cons_of_mem _ hd, hkey⟩
      · rintro (h | ⟨d, hd, hkey⟩)
        · exact Or.inl (Or.inl h)
        · rcases List.mem_cons.1 hd with rfl | hd
          · exact Or.inl (Or.inr hkey.symm)
          · exact Or.inr ⟨d, hd, hkey⟩

theorem mem_firstSeenSections (xs : List DocRecord) (s : String) :
    s ∈ firstSeenSections xs ↔ ∃ d ∈ xs, sectionKey d = s := by
  simpa [firstSeenSections] using mem_firstSeenSections_foldl xs s []

theorem nodup_firstSeenSections (xs : List DocRecord) :
    (firstSeenSections xs).Nodup := by
  suffices h : ∀ acc : List String, acc.Nodup →
      (xs.foldl (fun ks d =>
        if sectionKey d ∈ ks then ks else ks ++ [sectionKey d])
          acc).Nodup from h [] List.nodup_nil
  induction xs with
  | nil => intro acc hacc; simpa using hacc
  | cons x xs ih =>
    intro acc hacc
    simp only [List.foldl_cons]
    by_cases hc : sectionKey x ∈ acc
    · rw [if_pos hc]; exact ih acc hacc
    · rw [if_neg hc]
      refine ih _ ?_
      refine List.Nodup.append hacc (List.nodup_singleton _) ?_
      intro a ha hb
      rcases List.mem_singleton.1 hb with rfl
      exact hc ha

theorem insertGroup_map_of_mem (ks : List String) (F : String → List DocRecord)
    (k : String) (d : DocRecord) (hk : k ∈ ks) (hnd : ks.Nodup) :
    insertGroup (ks.map fun s => (s, F s)) k d =
      ks.map fun s => (s, if s == k then F s ++ [d] else F s) := by
  induction ks with
  | nil => cases hk
  | cons a ks ih =>
    simp only [List.map_cons, insertGroup]
    by_cases hak : a = k
    · subst hak
      have hnot : a ∉ ks := (List.nodup_cons.1 hnd).1
      rw [if_pos (beq_self_eq_true a), if_pos (beq_self_eq_true a)]
      congr 1
      refine (List.map_congr_left ?_).symm
      intro s hs
      have hne : (s == a) = false :=
        beq_eq_false_iff_ne.2 fun h => hnot (h ▸ hs)
      rw [hne]
      simp
    · have hbeq : (a == k) = false := beq_eq_false_iff_ne.2 hak
      rcases List.mem_cons.1 hk with rfl | hk'
      · exact absurd rfl hak
      · rw [hbeq]
        simp only [Bool.false_eq_true, if_neg, not_false_iff]
        rw [ih hk' (List.nodup_cons.1 hnd).2]

theorem insertGroup_map_of_notMem (ks : List String)
    (F : String → List DocRecord) (k : String) (d : DocRecord)
    (hk : ∀ s ∈ ks, s ≠ k) :
    insertGroup (ks.map fun s => (s, F s)) k d =
      (ks.map fun s => (s, F s)) ++ [(k, [d])] := by
  induction ks with
  | nil => rfl
  | cons a ks ih =>
    have hak : (a == k) = false :=
      beq_eq_false_iff_ne.2 (hk a (List.mem_cons_self _ _))
    simp only [List.map_cons, insertGroup, hak, Bool.false_eq_true, if_neg,
      not_false_iff, List.cons_append]
    rw [ih fun s hs => hk s (List.mem_cons_of_mem _ hs)]

theorem insertGroup_accOf (xs : List DocRecord) (d : DocRecord) :
    insertGroup (accOf xs) (sectionKey d) d = accOf (xs ++ [d]) := by
  by_cases hk : sectionKey d ∈ firstSeenSections xs
  · rw [accOf, insertGroup_map_of_mem _ _ _ _ hk (nodup_firstSeenSections xs)]
    rw [accOf, firstSeenSections_append_single, if_pos hk]
    refine List.map_congr_left ?_
    intro s hs
    rw [List.filter_append]
    by_cases hsd : s = sectionKey d
    · subst hsd
      rw [if_pos (beq_self_eq_true (sectionKey d))]
      simp
    · have h1 : (s == sectionKey d) = false := beq_eq_false_iff_ne.2 hsd
      have h2 : (sectionKey d == s) = false :=
        beq_eq_false_iff_ne.2 (Ne.symm hsd)
      rw [h1]
      simp [h2]
  · rw [accOf, insertGroup_map_of_notMem _ _ _ _
      (fun s hs h => hk (by rw [h] at hs; exact hs))]
    rw [accOf, firstSeenSections_append_single, if_neg hk]
    simp only [List.map_append, List.map_cons, List.map_nil]
    congr 1
    · refine List.map_congr_left ?_
      intro s hs
      have hsd : (sectionKey d == s) = false :=
        beq_eq_false_iff_ne.2 fun h => hk (h ▸ hs)
      simp [List.filter_append, hsd]
    · have hempty : xs.filter (fun d' => sectionKey d' == sectionKey d) = [] := by
        rw [List.filter_eq_nil_iff]
        intro a ha hkey
        exact hk ((eq_of_beq hkey) ▸ (mem_firstSeenSections xs _).mpr
          ⟨a, ha, rfl⟩)
      simp [List.filter_append, hempty]

theorem groupDocs_eq_accOf (docs : List DocRecord) :
    groupDocs docs = accOf docs := by
  suffices h : ∀ rest xs,
      List.foldl (fun acc d => insertGroup acc (sectionKey d) d) (accOf xs)
        rest = accOf (xs ++ rest) by
    have h0 := h docs []
    simpa [groupDocs, accOf, firstSeenSections] using h0
  intro rest
  induction rest with
  | nil => intro xs; simp
  | cons r rest ih =>
    intro xs
    have step := insertGroup_accOf xs r
    calc List.foldl (fun acc d => insertGroup acc (sectionKey d) d)
          (accOf xs) (r :: rest)
        = List.foldl (fun acc d => insertGroup acc (sectionKey d) d)
            (accOf (xs ++ [r])) rest := by
          simp only [List.foldl_cons, step]
      _ = accOf ((xs ++ [r]) ++ rest) := ih (xs ++ [r])
      _ = accOf (xs ++ r :: rest) := by simp

theorem mem_insertByNat (p q : String × List DocRecord)
    (l : List (String × List DocRecord)) :
    p ∈ insertByNat q l ↔ p = q ∨ p ∈ l := by
  induction l with
  | nil => simp [insertByNat]
  | cons a l ih =>
    simp only [insertByNat]
    split
    · simp [or_comm, or_left_comm]
    · simp [ih, or_comm, or_left_comm]

theorem mem_sortByNat (p : String × List DocRecord)
    (l : List (String × List DocRecord)) :
    p ∈ sortByNat l ↔ p ∈ l := by
  induction l with
  | nil => simp [sortByNat]
  | cons a l ih =>
    simp only [sortByNat, List.foldr_cons] at *
    rw [mem_insertByNat, ih]
    simp [eq_comm]

theorem mem_jsEntries (p : String × List DocRecord)
    (acc : List (String × List DocRecord)) :
    p ∈ jsEntries acc ↔ p ∈ acc := by
  simp only [jsEntries, List.mem_append, mem_sortByNat, List.mem_filter]
  by_cases h : isArrayIndexKey p.1 <;> simp [h]

/-! ## Claim theorems: link discovery -/

/-- **C4.** A navigation/extraction failure whose message contains `"429"`
makes `extractLinks` fail immediately with the distinct error
`"Rate limit exceeded"`, with no further attempts and the retry counter still
at its initial value `0`; failures not indicating a rate limit are retried up
to 2 attempts total, and exhausting them surfaces the last underlying
error (with the counter at 2). -/
theorem extractLinks_rate_limit_and_retry
    (oracle : Nat → Except String (List LinkRecord)) (m0 m1 : String) :
    ((oracle 0 = .error m0 ∧ jsIncludes m0 "429" = true) →
      extractLinks oracle = (some (.error "Rate limit exceeded"), 0)) ∧
    ((oracle 0 = .error m0 ∧ jsIncludes m0 "429" = false ∧
      oracle 1 = .error m1 ∧ jsIncludes m1 "429" = false) →
      extractLinks oracle = (some (.error m1), 2)) := by
  constructor
  · rintro ⟨h0, h429⟩
    simp [extractLinks, extractLinksLoop, maxRetries, h0, h429]
  · rintro ⟨h0, h0n, h1, h1n⟩
    simp [extractLinks, extractLinksLoop, maxRetries, h0, h0n, h1, h1n]

/-- **C4 (witness).** The theorem applied to two concrete oracles: one whose
first attempt fails with a message containing 429, and one that fails twice
with ordinary messages. -/
theorem extractLinks_rate_limit_and_retry_witness :
    extractLinks (fun _ => .error "HTTP 429 Too Many Requests") =
      (some (.error "Rate limit exceeded"), 0) ∧
    extractLinks (fun n => if n == 0 then .error "net fail A"
      else .error "net fail B") = (some (.error "net fail B"), 2) :=
  ⟨(extractLinks_rate_limit_and_retry
      (fun _ => .error "HTTP 429 Too Many Requests")
      "HTTP 429 Too Many Requests" "").1 ⟨rfl, by decide⟩,
    (extractLinks_rate_limit_and_retry
      (fun n => if n == 0 then .error "net fail A" else .error "net fail B")
      "net fail A" "net fail B").2 ⟨rfl, by decide, rfl, by decide⟩⟩

/-! ## Lemmas: DOM trees and path-indexed mutation -/

theorem getAt_append (root : Node) (p q : List Nat) :
    getAt root (p ++ q) = (getAt root p).bind fun n => getAt n q := by
  induction p generalizing root with
  | nil => simp [getAt]
  | cons i p ih =>
    cases root with
    | text s => simp [getAt]
    | elem t idA c w cs =>
      simp only [List.cons_append, getAt]
      cases cs[i]? with
      | none => simp
      | some ch => simp [ih]

theorem modifyChild_getElem (cs : List Node) (j : Nat) (F : Node → Node)
    (k : Nat) :
    (modifyChild cs j F)[k]? = if j = k then (cs[k]?).map F else cs[k]? := by
  induction cs generalizing j k with
  | nil => simp [modifyChild]
  | cons c cs ih =>
    cases j with
    | zero =>
      cases k with
      | zero => simp [modifyChild]
      | succ k => simp [modifyChild]
    | succ j =>
      cases k with
      | zero => simp [modifyChild]
      | succ k => simpa [modifyChild] using ih j k

theorem nodeTag_setClassWS (cls : String) (n : Node) :
    nodeTag (setClassWS cls n) = nodeTag n := by
  cases n <;> rfl

theorem getAt_setClassWS_cons (cls : String) (n : Node) (j : Nat)
    (q : List Nat) :
    getAt (setClassWS cls n) (j :: q) = getAt n (j :: q) := by
  cases n <;> rfl

theorem nodeClass_setClassWS (cls : String) (n : Node)
    (h : nodeTag n ≠ "") : nodeClass (setClassWS cls n) = cls := by
  cases n with
  | text s => exact absurd rfl h
  | elem t i c w cs => rfl

theorem nodeWS_setClassWS (cls : String) (n : Node)
    (h : nodeTag n ≠ "") : nodeWS (setClassWS cls n) = "pre" := by
  cases n with
  | text s => exact absurd rfl h
  | elem t i c w cs => rfl

theorem tagAt_modifyAt_reclass (g : String → String) (root : Node)
    (p q : List Nat) :
    tagAt (modifyAt (fun t => setClassWS (g (nodeClass t)) t) root p) q =
      tagAt root q := by
  induction p generalizing root q with
  | nil =>
    cases q with
    | nil => simp [modifyAt, tagAt, getAt, nodeTag_setClassWS]
    | cons j q' => simp [modifyAt, tagAt, getAt_setClassWS_cons]
  | cons j p' ih =>
    cases root with
    | text s => rfl
    | elem t idA cls w cs =>
      cases q with
      | nil => rfl
      | cons k q' =>
        simp only [modifyAt, tagAt, getAt, modifyChild_getElem]
        by_cases hjk : j = k
        · subst hjk
          cases hc : cs[j]? with
          | none => simp
          | some ch => simpa [tagAt] using ih ch q'
        · simp [hjk]

theorem classAt_wsAt_modifyAt_reclass (g : String → String) (root : Node)
    (p q : List Nat) (hne : p ≠ q) :
    classAt (modifyAt (fun t => setClassWS (g (nodeClass t)) t) root p) q =
      classAt root q ∧
    wsAt (modifyAt (fun t => setClassWS (g (nodeClass t)) t) root p) q =
      wsAt root q := by
  induction p generalizing root q with
  | nil =>
    cases q with
    | nil => exact absurd rfl hne
    | cons j q' =>
      constructor
      · simp [modifyAt, classAt, getAt_setClassWS_cons]
      · simp [modifyAt, wsAt, getAt_setClassWS_cons]
  | cons j p' ih =>
    cases root with
    | text s => exact ⟨rfl, rfl⟩
    | elem t idA cls w cs =>
      cases q with
      | nil => exact ⟨rfl, rfl⟩
      | cons k q' =>
        by_cases hjk : j = k
        · subst hjk
          have hpq : p' ≠ q' := fun h => hne (by rw [h])
          constructor
          · simp only [modifyAt, classAt, getAt, modifyChild_getElem, if_pos rfl]
            cases hc : cs[j]? with
            | none => simp
            | some ch => simpa [classAt] using (ih ch q' hpq).1
          · simp only [modifyAt, wsAt, getAt, modifyChild_getElem, if_pos rfl]
            cases hc : cs[j]? with
            | none => simp
            | some ch => simpa [wsAt] using (ih ch q' hpq).2
        · constructor
          · simp [modifyAt, classAt, getAt, modifyChild_getElem, hjk]
          · simp [modifyAt, wsAt, getAt, modifyChild_getElem, hjk]

theorem getAt_modifyAt_reclass_self (g : String → String) (root : Node)
    (p : List Nat) (n : Node) (h : getAt root p = some n) :
    getAt (modifyAt (fun t => setClassWS (g (nodeClass t)) t) root p) p =
      some (setClassWS (g (nodeClass n)) n) := by
  induction p generalizing root with
  | nil =>
    simp only [getAt, Option.some.injEq] at h
    subst h
    cases root <;> rfl
  | cons j p' ih =>
    cases root with
    | text s => simp [getAt] at h
    | elem t idA cls w cs =>
      simp only [getAt] at h
      cases hc : cs[j]? with
      | none => rw [hc] at h; cases h
      | some ch =>
        rw [hc] at h
        simp only [modifyAt, getAt, modifyChild_getElem, if_pos rfl, hc,
          Option.map_some]
        exact ih ch h

theorem mem_descendantsList_of (cs : List Node) :
    (∀ c ∈ cs, ∀ pfx (pe : List Nat × Node),
      pe ∈ descendantsFrom pfx c ↔
        ∃ i rel, pe.1 = pfx ++ i :: rel ∧ getAt c (i :: rel) = some pe.2) →
    ∀ pfx i0 (pe : List Nat × Node),
      pe ∈ descendantsList pfx i0 cs ↔
        ∃ j rel c, cs[j]? = some c ∧ pe.1 = pfx ++ (i0 + j) :: rel ∧
          getAt c rel = some pe.2 := by
  induction cs with
  | nil =>
    intro _ pfx i0 pe
    simp [descendantsList]
  | cons c cs ihl =>
    intro h pfx i0 pe
    obtain ⟨pp, pn⟩ := pe
    have hc := h c (List.mem_cons_self _ _)
    have hrest := ihl (fun c' hc' => h c' (List.mem_cons_of_mem _ hc'))
      pfx (i0 + 1) (pp, pn)
    simp only [descendantsList, List.mem_append, List.mem_cons]
    rw [hc (pfx ++ [i0]) (pp, pn), hrest]
    constructor
    · rintro ((heq | ⟨i, rel, hp, hg⟩) | ⟨j, rel, ch, hch, hp, hg⟩)
      · rcases Prod.mk.injEq .. ▸ heq with ⟨hp, hn⟩
        exact ⟨0, [], c, by simp, by simpa using hp, by simp [getAt, hn]⟩
      · exact ⟨0, i :: rel, c, by simp, by simpa [List.append_assoc] using hp,
          hg⟩
      · refine ⟨j + 1, rel, ch, by simpa using hch, ?_, hg⟩
        simpa [Nat.add_comm, Nat.add_assoc, Nat.add_left_comm] using hp
    · rintro ⟨j, rel, ch, hch, hp, hg⟩
      cases j with
      | zero =>
        have hceq : c = ch := by simpa using hch
        subst hceq
        cases rel with
        | nil =>
          left; left
          simp only [getAt, Option.some.injEq] at hg
          simp only [Nat.add_zero] at hp
          simp [Prod.ext_iff, hp, hg.symm]
        | cons i rel' =>
          left; right
          exact ⟨i, rel', by simpa [List.append_assoc, Nat.add_zero] using hp,
            hg⟩
      | succ j =>
        right
        refine ⟨j, rel, ch, by simpa using hch, ?_, hg⟩
        simpa [Nat.add_comm, Nat.add_assoc, Nat.add_left_comm] using hp

theorem mem_descendantsFrom_iff (n : Node) :
    ∀ pfx (pe : List Nat × Node),
      pe ∈ descendantsFrom pfx n ↔
        ∃ i rel, pe.1 = pfx ++ i :: rel ∧ getAt n (i :: rel) = some pe.2 := by
  induction n using nodeInduction with
  | htext s =>
    intro pfx pe
    simp [descendantsFrom, getAt]
  | helem t idA c w cs ih =>
    intro pfx pe
    obtain ⟨pp, pn⟩ := pe
    rw [show descendantsFrom pfx (.elem t idA c w cs) =
      descendantsList pfx 0 cs from by simp [descendantsFrom]]
    rw [mem_descendantsList_of cs ih pfx 0 (pp, pn)]
    constructor
    · rintro ⟨j, rel, ch, hch, hp, hg⟩
      refine ⟨j, rel, by simpa using hp, ?_⟩
      simp [getAt, hch, hg]
    · rintro ⟨i, rel, hp, hg⟩
      simp only [getAt] at hg
      cases hch : cs[i]? with
      | none => rw [hch] at hg; cases hg
      | some ch =>
        rw [hch] at hg
        exact ⟨i, rel, ch, hch, by simpa using hp, hg⟩

/-- Valid-path characterization of the snapshot source: an entry of
`descendantsFrom [] root` is exactly a nonempty path with its node. -/
theorem mem_descendantsFrom_root (root : Node) (p : List Nat) (n : Node) :
    (p, n) ∈ descendantsFrom [] root ↔ p ≠ [] ∧ getAt root p = some n := by
  rw [mem_descendantsFrom_iff root [] (p, n)]
  constructor
  · rintro ⟨i, rel, hp, hg⟩
    simp only at hp
    subst hp
    simpa using hg
  · rintro ⟨hne, hg⟩
    cases p with
    | nil => exact absurd rfl hne
    | cons i rel => exact ⟨i, rel, by simp, hg⟩

theorem mem_allPathNodes (root : Node) (p : List Nat) (n : Node) :
    (p, n) ∈ allPathNodes root ↔ getAt root p = some n := by
  simp only [allPathNodes, List.mem_cons, mem_descendantsFrom_root]
  constructor
  · rintro (heq | ⟨hne, hg⟩)
    · rcases Prod.mk.injEq .. ▸ heq with ⟨hp, hn⟩
      subst hp
      simp [getAt, hn]
    · exact hg
  · intro hg
    cases p with
    | nil =>
      left
      simp only [getAt, Option.some.injEq] at hg
      simp [Prod.ext_iff, hg.symm]
    | cons i rel => right; exact ⟨by simp, hg⟩

theorem pairwise_descendantsList_of (cs : List Node) :
    (∀ c ∈ cs, ∀ pfx,
      (descendantsFrom pfx c).Pairwise fun a b => a.1 ≠ b.1) →
    ∀ pfx i0,
      (descendantsList pfx i0 cs).Pairwise fun a b => a.1 ≠ b.1 := by
  induction cs with
  | nil =>
    intro _ pfx i0
    simp [descendantsList]
  | cons c cs ihl =>
    intro h pfx i0
    have hshape : ∀ pe : List Nat × Node, pe ∈ descendantsFrom (pfx ++ [i0]) c →
        ∃ rel, pe.1 = pfx ++ i0 :: rel := by
      intro pe hpe
      rcases (mem_descendantsFrom_iff c (pfx ++ [i0]) pe).1 hpe with
        ⟨i, rel, hp, -⟩
      exact ⟨i :: rel, by simpa [List.append_assoc] using hp⟩
    have hshapeR : ∀ pe : List Nat × Node, pe ∈ descendantsList pfx (i0 + 1) cs →
        ∃ j rel, i0 + 1 ≤ j ∧ pe.1 = pfx ++ j :: rel := by
      intro pe hpe
      rcases (mem_descendantsList_of cs
        (fun c' hc' => mem_descendantsFrom_iff c') pfx (i0 + 1) pe).1 hpe with
        ⟨j, rel, ch, -, hp, -⟩
      exact ⟨i0 + 1 + j, rel, by omega, hp⟩
    simp only [descendantsList]
    rw [List.pairwise_append]
    refine ⟨?_, ihl (fun c' hc' => h c' (List.mem_cons_of_mem _ hc')) pfx
      (i0 + 1), ?_⟩
    · rw [List.pairwise_cons]
      refine ⟨?_, h c (List.mem_cons_self _ _) (pfx ++ [i0])⟩
      intro pe hpe
      rcases (mem_descendantsFrom_iff c (pfx ++ [i0]) pe).1 hpe with
        ⟨i, rel', hp', -⟩
      intro heq
      have h2 : pfx ++ [i0] = (pfx ++ [i0]) ++ i :: rel' := by
        simpa [hp'] using heq
      have h3 := congrArg List.length h2
      simp at h3
    · intro a ha b hb
      have hashape : ∃ rel, a.1 = pfx ++ i0 :: rel := by
        rcases List.mem_cons.1 ha with rfl | ha'
        · exact ⟨[], rfl⟩
        · exact hshape a ha'
      rcases hashape with ⟨ra, hra⟩
      rcases hshapeR b hb with ⟨j, rb, hj, hrb⟩
      intro heq
      rw [hra, hrb] at heq
      have := List.append_cancel_left heq
      simp only [List.cons.injEq] at this
      omega

theorem pairwise_descendantsFrom (n : Node) :
    ∀ pfx, (descendantsFrom pfx n).Pairwise fun a b => a.1 ≠ b.1 := by
  induction n using nodeInduction with
  | htext s => intro pfx; simp [descendantsFrom]
  | helem t idA c w cs ih =>
    intro pfx
    rw [show descendantsFrom pfx (.elem t idA c w cs) =
      descendantsList pfx 0 cs from by simp [descendantsFrom]]
    exact pairwise_descendantsList_of cs ih pfx 0

theorem strictUnder_iff (p q : List Nat) :
    strictUnder p q = true ↔ ∃ i r, q = p ++ i :: r := by
  unfold strictUnder
  simp only [Bool.and_eq_true, decide_eq_true_eq, beq_iff_eq]
  constructor
  · rintro ⟨hlen, htake⟩
    have hq : q = p ++ q.drop p.length := by
      conv_lhs => rw [← List.take_append_drop p.length q]
      rw [htake]
    cases hd : q.drop p.length with
    | nil =>
      have hlen2 := congrArg List.length hd
      simp [List.length_drop] at hlen2
      omega
    | cons i r => exact ⟨i, r, by rw [hq, hd]⟩
  · rintro ⟨i, r, rfl⟩
    constructor
    · simp
    · rw [show (p ++ i :: r).take p.length = p from List.take_left p (i :: r)]

theorem under_comparable : ∀ (p p' r r' : List Nat), p ++ r = p' ++ r' →
    (∃ s, p' = p ++ s) ∨ ∃ s, p = p' ++ s := by
  intro p
  induction p with
  | nil => intro p' r r' _; exact Or.inl ⟨p', rfl⟩
  | cons a p ih =>
    intro p' r r' h
    cases p' with
    | nil => exact Or.inr ⟨a :: p, rfl⟩
    | cons b p'' =>
      simp only [List.cons_append, List.cons.injEq] at h
      obtain ⟨rfl, h2⟩ := h
      rcases ih p'' r r' h2 with ⟨s, hs⟩ | ⟨s, hs⟩
      · exact Or.inl ⟨s, by rw [hs]; rfl⟩
      · exact Or.inr ⟨s, by rw [hs]; rfl⟩

theorem wf_no_nested_pre (root : Node) (hwf : WfCodeTree root)
    (p q : List Nat) (np nq : Node) (hp : getAt root p = some np)
    (hq : getAt root q = some nq) (htp : nodeTag np = "PRE")
    (htq : nodeTag nq = "PRE") (i : Nat) (r : List Nat)
    (heq : q = p ++ i :: r) : False := by
  have h1 := hwf.1 (p, np) ((mem_allPathNodes root p np).2 hp) (q, nq)
    ((mem_allPathNodes root q nq).2 hq) htp htq
  rw [(strictUnder_iff p q).2 ⟨i, r, heq⟩] at h1
  cases h1

theorem wf_code_direct (root : Node) (hwf : WfCodeTree root)
    (p q : List Nat) (np nq : Node) (hp : getAt root p = some np)
    (hq : getAt root q = some nq) (htp : nodeTag np = "PRE")
    (htq : nodeTag nq = "CODE") (i : Nat) (r : List Nat)
    (heq : q = p ++ i :: r) : q.length = p.length + 1 := by
  exact hwf.2 (p, np) ((mem_allPathNodes root p np).2 hp) (q, nq)
    ((mem_allPathNodes root q nq).2 hq) htp htq
    ((strictUnder_iff p q).2 ⟨i, r, heq⟩)

theorem firstCodeRel_sound (n : Node) (rel : List Nat)
    (h : firstCodeRel n = some rel) :
    rel ≠ [] ∧ ∃ c, getAt n rel = some c ∧ nodeTag c = "CODE" := by
  unfold firstCodeRel at h
  cases hf : (descendantsFrom [] n).find? fun pe => nodeTag pe.2 == "CODE" with
  | none => rw [hf] at h; cases h
  | some pe =>
    rw [hf] at h
    simp only [Option.map_some', Option.some.injEq] at h
    subst h
    have hmem := List.mem_of_find?_eq_some hf
    have hpred := List.find?_some hf
    rcases (mem_descendantsFrom_iff n [] pe).1 hmem with ⟨i, rel', hp, hg⟩
    simp only [List.nil_append] at hp
    refine ⟨by rw [hp]; simp, pe.2, by rw [hp]; exact hg, ?_⟩
    exact eq_of_beq hpred

theorem processOne_eq_write (root cur : Node) (pe : List Nat × Node)
    (htags : ∀ q, tagAt cur q = tagAt root q) :
    processOne cur pe =
      match writeTargetOf root pe with
      | none => cur
      | some t =>
        modifyAt (fun tn => setClassWS (writeClassOf pe (nodeClass tn)) tn)
          cur t := by
  by_cases hpre : (nodeTag pe.2 == "PRE") = true
  · simp [processOne, writeTargetOf, writeClassOf, hpre]
  · by_cases hcode : (nodeTag pe.2 == "CODE") = true
    · by_cases hpar : (tagAt root pe.1.dropLast == "PRE") = true
      · simp [processOne, writeTargetOf, writeClassOf, hpre, hcode,
          htags pe.1.dropLast, hpar]
      · simp [processOne, writeTargetOf, writeClassOf, hpre, hcode,
          htags pe.1.dropLast, hpar]
    · simp [processOne, writeTargetOf, hpre, hcode]

theorem tagAt_processOne (cur : Node) (pe : List Nat × Node) (q : List Nat) :
    tagAt (processOne cur pe) q = tagAt cur q := by
  unfold processOne
  by_cases hpre : (nodeTag pe.2 == "PRE") = true
  · simp only [hpre, if_pos]
    exact tagAt_modifyAt_reclass
      (fun cls => "prettyprint lang-" ++ langOf cls) cur _ q
  · by_cases hcode : (nodeTag pe.2 == "CODE") = true
    · simp only [hpre, hcode, Bool.false_eq_true, if_neg, if_pos,
        not_false_iff]
      by_cases hpar : (tagAt cur pe.1.dropLast == "PRE") = true
      · simp [hpar]
      · simp only [hpar, Bool.false_eq_true, if_neg, not_false_iff]
        exact tagAt_modifyAt_reclass (fun _ => "inline") cur pe.1 q
    · simp [hpre, hcode]

theorem tagAt_foldl_processOne (l : List (List Nat × Node)) :
    ∀ cur q, tagAt (List.foldl processOne cur l) q = tagAt cur q := by
  induction l with
  | nil => intro cur q; rfl
  | cons pe l ih =>
    intro cur q
    rw [List.foldl_cons, ih, tagAt_processOne]

theorem classAt_foldl_no_write (root : Node) (l : List (List Nat × Node))
    (t : List Nat) :
    ∀ cur, (∀ q, tagAt cur q = tagAt root q) →
      (∀ pe ∈ l, writeTargetOf root pe ≠ some t) →
      classAt (List.foldl processOne cur l) t = classAt cur t ∧
      wsAt (List.foldl processOne cur l) t = wsAt cur t := by
  induction l with
  | nil => intro cur _ _; exact ⟨rfl, rfl⟩
  | cons pe l ih =>
    intro cur htags hnw
    rw [List.foldl_cons]
    have hstep := processOne_eq_write root cur pe htags
    cases hw : writeTargetOf root pe with
    | none =>
      rw [hw] at hstep
      simp only at hstep
      rw [hstep]
      exact ih cur htags fun pe' hpe' => hnw pe' (List.mem_cons_of_mem _ hpe')
    | some t' =>
      have hne : t' ≠ t := fun h =>
        hnw pe (List.mem_cons_self _ _) (by rw [hw, h])
      rw [hw] at hstep
      simp only at hstep
      rw [hstep]
      have hmod := classAt_wsAt_modifyAt_reclass (writeClassOf pe) cur t' t hne
      have htagsM : ∀ q, tagAt (modifyAt (fun tn =>
          setClassWS (writeClassOf pe (nodeClass tn)) tn) cur t') q =
          tagAt root q := fun q =>
        (tagAt_modifyAt_reclass (writeClassOf pe) cur t' q).trans (htags q)
      have hrec := ih _ htagsM
        fun pe' hpe' => hnw pe' (List.mem_cons_of_mem _ hpe')
      exact ⟨hrec.1.trans hmod.1, hrec.2.trans hmod.2⟩

theorem classAt_foldl_single_write (root : Node)
    (l1 l2 : List (List Nat × Node)) (pe : List Nat × Node) (t : List Nat)
    (n : Node) (hw : writeTargetOf root pe = some t)
    (hn : getAt root t = some n) (htag : nodeTag n ≠ "")
    (hl1 : ∀ pe' ∈ l1, writeTargetOf root pe' ≠ some t)
    (hl2 : ∀ pe' ∈ l2, writeTargetOf root pe' ≠ some t) :
    classAt (List.foldl processOne root (l1 ++ pe :: l2)) t =
      writeClassOf pe (nodeClass n) ∧
    wsAt (List.foldl processOne root (l1 ++ pe :: l2)) t = "pre" := by
  rw [List.foldl_append, List.foldl_cons]
  have htags1 : ∀ q, tagAt (List.foldl processOne root l1) q = tagAt root q :=
    fun q => tagAt_foldl_processOne l1 root q
  have hkeep1 := classAt_foldl_no_write root l1 t root (fun _ => rfl) hl1
  obtain ⟨n1, hn1⟩ : ∃ n1, getAt (List.foldl processOne root l1) t = some n1 := by
    have h := htags1 t
    simp only [tagAt, hn] at h
    cases hg : getAt (List.foldl processOne root l1) t with
    | none => rw [hg] at h; exact absurd h.symm htag
    | some n1 => exact ⟨n1, rfl⟩
  have hn1class : nodeClass n1 = nodeClass n := by
    have h := hkeep1.1
    simp only [classAt, hn1, hn] at h
    exact h
  have hn1tag : nodeTag n1 = nodeTag n := by
    have h := htags1 t
    simp only [tagAt, hn1, hn] at h
    exact h
  have hstep := processOne_eq_write root (List.foldl processOne root l1) pe
    htags1
  rw [hw] at hstep
  simp only at hstep
  rw [hstep]
  have hat2 := getAt_modifyAt_reclass_self (writeClassOf pe)
    (List.foldl processOne root l1) t n1 hn1
  have htags2 : ∀ q, tagAt (modifyAt (fun tn =>
      setClassWS (writeClassOf pe (nodeClass tn)) tn)
      (List.foldl processOne root l1) t) q = tagAt root q := fun q =>
    (tagAt_modifyAt_reclass (writeClassOf pe) _ t q).trans (htags1 q)
  have hkeep2 := classAt_foldl_no_write root l2 t _ htags2 hl2
  have hn1tag' : nodeTag n1 ≠ "" := by rw [hn1tag]; exact htag
  refine ⟨?_, ?_⟩
  · rw [hkeep2.1]
    simp only [classAt, hat2]
    rw [nodeClass_setClassWS _ _ hn1tag', hn1class]
  · rw [hkeep2.2]
    simp only [wsAt, hat2]
    rw [nodeWS_setClassWS _ _ hn1tag']

theorem mem_codeSnapshot (root : Node) (pe : List Nat × Node) :
    pe ∈ codeSnapshot root ↔
      pe.1 ≠ [] ∧ getAt root pe.1 = some pe.2 ∧
        (nodeTag pe.2 = "PRE" ∨ nodeTag pe.2 = "CODE") := by
  unfold codeSnapshot
  rw [List.mem_filter]
  obtain ⟨p, n⟩ := pe
  rw [mem_descendantsFrom_root]
  simp only [Bool.or_eq_true, beq_iff_eq]
  tauto

/-- Two snapshot entries with the same path are the same entry. -/
theorem snapshot_entry_ext (root : Node) (pe pe' : List Nat × Node)
    (hget : getAt root pe.1 = some pe.2)
    (hget' : getAt root pe'.1 = some pe'.2) (hpath : pe'.1 = pe.1) :
    pe' = pe := by
  obtain ⟨p, n⟩ := pe
  obtain ⟨p', n'⟩ := pe'
  simp only at hget hget' hpath
  subst hpath
  rw [hget] at hget'
  simp only [Option.some.injEq] at hget'
  rw [hget']

/-- The shape of a write target: a `pre` writes its first descendant code
(a `CODE` node strictly below it) or itself; a `code` writes itself, and only
when its direct parent is not a `pre`. -/
theorem writeTarget_cases (root : Node) (pe : List Nat × Node)
    (hget : getAt root pe.1 = some pe.2) (t : List Nat)
    (hw : writeTargetOf root pe = some t) :
    (nodeTag pe.2 = "PRE" ∧
      ((∃ rel c, firstCodeRel pe.2 = some rel ∧ t = pe.1 ++ rel ∧ rel ≠ [] ∧
        getAt root t = some c ∧ nodeTag c = "CODE") ∨
       (firstCodeRel pe.2 = none ∧ t = pe.1))) ∨
    (nodeTag pe.2 = "CODE" ∧ t = pe.1 ∧
      tagAt root pe.1.dropLast ≠ "PRE") := by
  unfold writeTargetOf at hw
  by_cases hpre : (nodeTag pe.2 == "PRE") = true
  · left
    refine ⟨eq_of_beq hpre, ?_⟩
    rw [if_pos hpre] at hw
    simp only [Option.some.injEq] at hw
    cases hfc : firstCodeRel pe.2 with
    | none =>
      right
      rw [hfc] at hw
      exact ⟨rfl, hw.symm⟩
    | some rel =>
      left
      rw [hfc] at hw
      obtain ⟨hrelne, c, hgc, htagc⟩ := firstCodeRel_sound pe.2 rel hfc
      refine ⟨rel, c, rfl, hw.symm, hrelne, ?_, htagc⟩
      rw [← hw]
      simp only [getAt_append, hget, Option.some_bind]
      exact hgc
  · rw [if_neg hpre] at hw
    by_cases hcode : (nodeTag pe.2 == "CODE") = true
    · rw [if_pos hcode] at hw
      by_cases hpar : (tagAt root pe.1.dropLast == "PRE") = true
      · rw [if_pos hpar] at hw
        cases hw
      · rw [if_neg hpar] at hw
        simp only [Option.some.injEq] at hw
        right
        refine ⟨eq_of_beq hcode, hw.symm, ?_⟩
        intro h
        exact hpar (by rw [h]; exact beq_self_eq_true "PRE")
    · rw [if_neg hcode] at hw
      cases hw

/-- Under well-formedness, a code node targeted by a `pre` strictly above it
sits directly under that `pre`: the target's parent is the `pre`. -/
theorem preCodeTarget_parent (root : Node) (hwf : WfCodeTree root)
    (p : List Nat) (np : Node) (hp : getAt root p = some np)
    (htp : nodeTag np = "PRE") (rel : List Nat) (hrelne : rel ≠ [])
    (t : List Nat) (hteq : t = p ++ rel) (c : Node)
    (hgc : getAt root t = some c) (htagc : nodeTag c = "CODE") :
    tagAt root t.dropLast = "PRE" := by
  obtain ⟨i, r, rfl⟩ : ∃ i r, rel = i :: r := by
    cases rel with
    | nil => exact absurd rfl hrelne
    | cons i r => exact ⟨i, r, rfl⟩
  subst hteq
  have hlen := wf_code_direct root hwf p (p ++ i :: r) np c hp hgc htp htagc
    i r rfl
  have hr : r = [] := by
    simp only [List.length_append, List.length_cons] at hlen
    have : r.length = 0 := by omega
    exact List.length_eq_zero.1 this
  subst hr
  rw [show p ++ [i] = p ++ [i] from rfl, List.dropLast_concat]
  simp [tagAt, hp, htp]

/-- Under well-formedness, distinct snapshot entries never write the same
path. -/
theorem writeTarget_unique (root : Node) (hwf : WfCodeTree root)
    (pe pe' : List Nat × Node) (t : List Nat)
    (hmem : pe ∈ codeSnapshot root) (hmem' : pe' ∈ codeSnapshot root)
    (hw : writeTargetOf root pe = some t)
    (hw' : writeTargetOf root pe' = some t) : pe' = pe := by
  obtain ⟨hne, hget, -⟩ := (mem_codeSnapshot root pe).1 hmem
  obtain ⟨hne', hget', -⟩ := (mem_codeSnapshot root pe').1 hmem'
  rcases writeTarget_cases root pe hget t hw with
    ⟨hpre, ⟨rel, c, hfc, hteq, hrelne, hgc, htagc⟩ | ⟨hfc, hteq⟩⟩ |
    ⟨hcode, hteq, hpar⟩ <;>
  rcases writeTarget_cases root pe' hget' t hw' with
    ⟨hpre', ⟨rel', c', hfc', hteq', hrelne', hgc', htagc'⟩ | ⟨hfc', hteq'⟩⟩ |
    ⟨hcode', hteq', hpar'⟩
  · -- both pres targeting code descendants: ancestors of t are comparable,
    -- so distinct pres would be nested
    obtain ⟨i, r, rfl⟩ : ∃ i r, rel = i :: r := by
      cases rel with
      | nil => exact absurd rfl hrelne
      | cons i r => exact ⟨i, r, rfl⟩
    obtain ⟨i', r', rfl⟩ : ∃ i r, rel' = i :: r := by
      cases rel' with
      | nil => exact absurd rfl hrelne'
      | cons i r => exact ⟨i, r, rfl⟩
    have hcomp := under_comparable pe.1 pe'.1 (i :: r) (i' :: r')
      (by rw [← hteq, ← hteq'])
    rcases hcomp with ⟨s, hs⟩ | ⟨s, hs⟩
    · cases s with
      | nil =>
        exact snapshot_entry_ext root pe pe' hget hget' (by simpa using hs)
      | cons a s' =>
        exact absurd (wf_no_nested_pre root hwf pe.1 pe'.1 pe.2 pe'.2 hget
          hget' hpre hpre' a s' hs) id
    · cases s with
      | nil =>
        exact snapshot_entry_ext root pe pe' hget hget'
          (by simpa using hs.symm)
      | cons a s' =>
        exact absurd (wf_no_nested_pre root hwf pe'.1 pe.1 pe'.2 pe.2 hget'
          hget hpre' hpre a s' hs) id
  · -- pre writing a code vs pre writing itself: the node at t cannot have
    -- both tags
    have : some c = some pe'.2 := by rw [← hgc, hteq', hget']
    simp only [Option.some.injEq] at this
    rw [this, hpre'] at htagc
    exact absurd htagc (by decide)
  · -- pre writing a code vs inline code writing itself: the code would sit
    -- directly under the pre, so its parent is a pre
    have hparent := preCodeTarget_parent root hwf pe.1 pe.2 hget hpre rel
      hrelne t hteq c hgc htagc
    rw [hteq'] at hparent
    exact absurd hparent hpar'
  · -- symmetric to case 2
    have : some c' = some pe.2 := by rw [← hgc', hteq, hget]
    simp only [Option.some.injEq] at this
    rw [this, hpre] at htagc'
    exact absurd htagc' (by decide)
  · -- both pres writing themselves at the same path
    exact snapshot_entry_ext root pe pe' hget hget' (by rw [← hteq, ← hteq'])
  · -- pre and code both writing themselves: same path, same entry
    exact snapshot_entry_ext root pe pe' hget hget' (by rw [← hteq', hteq])
  · -- symmetric to case 3
    have hparent := preCodeTarget_parent root hwf pe'.1 pe'.2 hget' hpre' rel'
      hrelne' t hteq' c' hgc' htagc'
    rw [hteq] at hparent
    exact absurd hparent hpar
  · -- symmetric: code and pre both writing themselves at the same path
    exact snapshot_entry_ext root pe pe' hget hget' (by rw [← hteq', hteq])
  · -- both codes writing themselves at the same path
    exact snapshot_entry_ext root pe pe' hget hget' (by rw [← hteq, ← hteq'])

/-- The final tree of `processCodeBlocks`, at the target of a snapshot entry
that is the target's unique writer: class rewritten from the original class,
whitespace forced. -/
theorem processCodeBlocks_write (root : Node) (pe : List Nat × Node)
    (hmem : pe ∈ codeSnapshot root) (t : List Nat) (n : Node)
    (hw : writeTargetOf root pe = some t)
    (huniq : ∀ pe' ∈ codeSnapshot root,
      writeTargetOf root pe' = some t → pe' = pe)
    (hn : getAt root t = some n) (htag : nodeTag n ≠ "") :
    classAt (processCodeBlocks root) t = writeClassOf pe (nodeClass n) ∧
    wsAt (processCodeBlocks root) t = "pre" := by
  have hpairwise : (codeSnapshot root).Pairwise (fun a b => a.1 ≠ b.1) :=
    List.Pairwise.filter _ (pairwise_descendantsFrom root [])
  have hnodup : (codeSnapshot root).Nodup :=
    hpairwise.imp fun h heq => h (by rw [heq])
  rcases List.append_of_mem hmem with ⟨l1, l2, hsplit⟩
  have hnodup2 := hsplit ▸ hnodup
  have hpe_not_l1 : pe ∉ l1 := by
    intro hin
    rcases List.nodup_append.1 hnodup2 with ⟨-, -, hdisj⟩
    exact hdisj hin (List.mem_cons_self _ _)
  have hpe_not_l2 : pe ∉ l2 := by
    rcases List.nodup_append.1 hnodup2 with ⟨-, hcons, -⟩
    exact (List.nodup_cons.1 hcons).1
  have hl1 : ∀ pe' ∈ l1, writeTargetOf root pe' ≠ some t := by
    intro pe' hpe' hweq
    have hmem'' : pe' ∈ codeSnapshot root := by
      rw [hsplit]
      exact List.mem_append_left _ hpe'
    have heq := huniq pe' hmem'' hweq
    exact hpe_not_l1 (heq ▸ hpe')
  have hl2 : ∀ pe' ∈ l2, writeTargetOf root pe' ≠ some t := by
    intro pe' hpe' hweq
    have hmem'' : pe' ∈ codeSnapshot root := by
      rw [hsplit]
      exact List.mem_append_right _ (List.mem_cons_of_mem _ hpe')
    have heq := huniq pe' hmem'' hweq
    exact hpe_not_l2 (heq ▸ hpe')
  rw [processCodeBlocks, hsplit]
  exact classAt_foldl_single_write root l1 l2 pe t n hw hn htag hl1 hl2

/-- **C5 (amended).** For every content tree in which no `pre` is nested
inside another `pre` and every `code` descendant of a `pre` is a direct child
of it: `processCodeBlocks` rewrites the class of each `pre`'s first
descendant `code` element (or of the `pre` itself when it has none) to
exactly `prettyprint lang-<name>`, where `<name>` is the capture of the
first `/language-(\w+)/` regex match anywhere in that element's class string
(not necessarily a whole class token), defaulting to `javascript` when there
is no match, and forces `white-space: pre` via inline style; and every `code`
element whose direct parent is not a `pre` gets class `inline` with the same
style. -/
theorem processCodeBlocks_normalizes (root : Node) (hwf : WfCodeTree root) :
    (∀ p : List Nat, p ≠ [] → tagAt root p = "PRE" →
      classAt (processCodeBlocks root) (preTarget root p) =
        "prettyprint lang-" ++ langOf (classAt root (preTarget root p)) ∧
      wsAt (processCodeBlocks root) (preTarget root p) = "pre") ∧
    (∀ p : List Nat, p ≠ [] → tagAt root p = "CODE" →
      tagAt root p.dropLast ≠ "PRE" →
      classAt (processCodeBlocks root) p = "inline" ∧
      wsAt (processCodeBlocks root) p = "pre") := by
  constructor
  · intro p hne htag
    obtain ⟨np, hp, htp⟩ : ∃ np, getAt root p = some np ∧
        nodeTag np = "PRE" := by
      cases hg : getAt root p with
      | none => simp only [tagAt, hg] at htag; exact absurd htag (by decide)
      | some np => simp only [tagAt, hg] at htag; exact ⟨np, rfl, htag⟩
    have hmem : (p, np) ∈ codeSnapshot root :=
      (mem_codeSnapshot root (p, np)).2 ⟨hne, hp, Or.inl htp⟩
    have hwt : writeTargetOf root (p, np) = some (preTarget root p) := by
      simp [writeTargetOf, preTarget, htp, hp]
    obtain ⟨n, hn, htagn⟩ : ∃ n, getAt root (preTarget root p) = some n ∧
        nodeTag n ≠ "" := by
      rcases writeTarget_cases root (p, np) hp (preTarget root p) hwt with
        ⟨-, ⟨rel, c, -, -, -, hgc, htagc⟩ | ⟨-, hteq⟩⟩ | ⟨hcode, -, -⟩
      · exact ⟨c, hgc, by rw [htagc]; decide⟩
      · refine ⟨np, ?_, by rw [htp]; decide⟩
        rw [hteq]
        exact hp
      · rw [htp] at hcode
        exact absurd hcode (by decide)
    have huniq : ∀ pe' ∈ codeSnapshot root,
        writeTargetOf root pe' = some (preTarget root p) → pe' = (p, np) :=
      fun pe' hm' hw' =>
        writeTarget_unique root hwf (p, np) pe' _ hmem hm' hwt hw'
    have hres := processCodeBlocks_write root (p, np) hmem _ n hwt huniq hn
      htagn
    have hwc : writeClassOf (p, np) (nodeClass n) =
        "prettyprint lang-" ++ langOf (nodeClass n) := by
      simp [writeClassOf, htp]
    have hclass : classAt root (preTarget root p) = nodeClass n := by
      simp [classAt, hn]
    refine ⟨hres.1.trans (hwc.trans (by rw [hclass])), hres.2⟩
  · intro p hne htag hpar
    obtain ⟨nc, hp, htc⟩ : ∃ nc, getAt root p = some nc ∧
        nodeTag nc = "CODE" := by
      cases hg : getAt root p with
      | none => simp only [tagAt, hg] at htag; exact absurd htag (by decide)
      | some nc => simp only [tagAt, hg] at htag; exact ⟨nc, rfl, htag⟩
    have hmem : (p, nc) ∈ codeSnapshot root :=
      (mem_codeSnapshot root (p, nc)).2 ⟨hne, hp, Or.inr htc⟩
    have hwt : writeTargetOf root (p, nc) = some p := by
      have h1 : (nodeTag nc == "PRE") = false := by
        rw [htc]
        decide
      have h2 : (nodeTag nc == "CODE") = true := by
        rw [htc]
        decide
      have h3 : (tagAt root p.dropLast == "PRE") = false :=
        beq_eq_false_iff_ne.2 hpar
      simp [writeTargetOf, h1, h2, h3]
    have huniq : ∀ pe' ∈ codeSnapshot root,
        writeTargetOf root pe' = some p → pe' = (p, nc) :=
      fun pe' hm' hw' =>
        writeTarget_unique root hwf (p, nc) pe' _ hmem hm' hwt hw'
    have hres := processCodeBlocks_write root (p, nc) hmem p nc hwt huniq hp
      (by rw [htc]; decide)
    have hwc : writeClassOf (p, nc) (nodeClass nc) = "inline" := by
      have h1 : (nodeTag nc == "PRE") = false := by
        rw [htc]
        decide
      simp [writeClassOf, h1]
    exact ⟨hres.1.trans hwc, hres.2⟩

/-- **C5 (counterexample).** The class string `xlanguage-ruby` holds no
`language-<name>` class token (its only token does not even start with
`language-`), so the claim prescribes the default `prettyprint
lang-javascript`; `processCodeBlocks` instead matches `/language-(\w+)/`
inside the larger token and rewrites the class to `prettyprint lang-ruby`. -/
theorem processCodeBlocks_not_token_based :
    classTokens "xlanguage-ruby" = ["xlanguage-ruby"] ∧
    (∀ tok ∈ classTokens "xlanguage-ruby",
      (['l', 'a', 'n', 'g', 'u', 'a', 'g', 'e', '-'].isPrefixOf tok.data) =
        false) ∧
    classAt (processCodeBlocks c5CexTree) [0, 0] = "prettyprint lang-ruby" ∧
    "prettyprint lang-ruby" ≠ "prettyprint lang-javascript" := by
  refine ⟨by decide, by decide, by decide, by decide⟩

/-- **C5 (witness).** The amended theorem applied to a concrete well-formed
content tree: the `pre`'s direct code child (its first descendant code, at
the computed target path), an inline code element, and the statement's
hypotheses discharged by computation. -/
theorem processCodeBlocks_normalizes_witness :
    WfCodeTree c5WitnessTree ∧
    (classAt (processCodeBlocks c5WitnessTree) (preTarget c5WitnessTree [0]) =
      "prettyprint lang-" ++
        langOf (classAt c5WitnessTree (preTarget c5WitnessTree [0])) ∧
      wsAt (processCodeBlocks c5WitnessTree) (preTarget c5WitnessTree [0]) =
        "pre") ∧
    (classAt (processCodeBlocks c5WitnessTree) [1] = "inline" ∧
      wsAt (processCodeBlocks c5WitnessTree) [1] = "pre") ∧
    (classAt (processCodeBlocks c5WitnessTree) (preTarget c5WitnessTree [2]) =
      "prettyprint lang-" ++
        langOf (classAt c5WitnessTree (preTarget c5WitnessTree [2])) ∧
      wsAt (processCodeBlocks c5WitnessTree) (preTarget c5WitnessTree [2]) =
        "pre") :=
  have hwf : WfCodeTree c5WitnessTree := ⟨by decide, by decide⟩
  ⟨hwf,
    (processCodeBlocks_normalizes c5WitnessTree hwf).1 [0] (by decide)
      (by decide),
    (processCodeBlocks_normalizes c5WitnessTree hwf).2 [1] (by decide)
      (by decide) (by decide),
    (processCodeBlocks_normalizes c5WitnessTree hwf).1 [2] (by decide)
      (by decide)⟩

/-! ## Lemmas: JSON string round-trip -/

theorem char_toNat_ofNat (n : Nat) (h : n < 0xD800) :
    (Char.ofNat n).toNat = n := by
  unfold Char.ofNat
  rw [dif_pos (Or.inl h : Nat.isValidChar n)]
  rfl

theorem char_not_surrogate (c : Char) :
    c.toNat < 0xD800 ∨ (0xDFFF < c.toNat ∧ c.toNat < 0x110000) := by
  have h := c.valid
  unfold UInt32.isValidChar at h
  unfold Nat.isValidChar at h
  exact h

theorem hexVal?_digitChar (m : Nat) (h : m < 10) :
    hexVal? (Char.ofNat (48 + m)) = some m := by
  unfold hexVal?
  rw [char_toNat_ofNat _ (by omega)]
  rw [if_pos (by omega)]
  congr 1
  omega

theorem hexVal?_letterChar (m : Nat) (h1 : 10 ≤ m) (h2 : m < 16) :
    hexVal? (Char.ofNat (87 + m)) = some m := by
  unfold hexVal?
  rw [char_toNat_ofNat _ (by omega)]
  rw [if_neg (by omega), if_pos (by omega)]
  congr 1
  omega

theorem unitsToChars_bmp (u : Nat) (rest : List Nat)
    (hu : u < 0xD800 ∨ (0xDFFF < u ∧ u < 0x10000)) :
    unitsToChars (u :: rest) = Char.ofNat u :: unitsToChars rest := by
  cases rest with
  | nil =>
    simp only [unitsToChars]
    rw [if_neg (by omega)]
  | cons v us =>
    simp only [unitsToChars]
    rw [if_neg (by omega), if_neg (by omega)]

theorem unitsToChars_utf16 (c : Char) (rest : List Nat) :
    unitsToChars (utf16Units c ++ rest) = c :: unitsToChars rest := by
  by_cases hbmp : c.toNat < 0x10000
  · have hunits : utf16Units c = [c.toNat] := by
      simp [utf16Units, hbmp]
    rw [hunits]
    simp only [List.cons_append, List.nil_append]
    rw [unitsToChars_bmp]
    · rw [Char.ofNat_toNat]
    · rcases char_not_surrogate c with h | ⟨h1, _⟩
      · exact Or.inl h
      · exact Or.inr ⟨h1, hbmp⟩
  · have hval := char_not_surrogate c
    have hlt : c.toNat < 0x110000 := by
      rcases hval with h | ⟨-, h⟩
      · omega
      · exact h
    have hunits : utf16Units c =
        [0xD800 + (c.toNat - 0x10000) / 0x400,
          0xDC00 + (c.toNat - 0x10000) % 0x400] := by
      simp [utf16Units, hbmp]
    rw [hunits]
    simp only [List.cons_append, List.nil_append]
    simp only [unitsToChars]
    rw [if_pos (by omega), if_pos (by omega)]
    have harith : 0x10000 + (0xD800 + (c.toNat - 0x10000) / 0x400 - 0xD800) *
        0x400 + (0xDC00 + (c.toNat - 0x10000) % 0x400 - 0xDC00) = c.toNat := by
      have := Nat.div_add_mod (c.toNat - 0x10000) 0x400
      omega
    rw [harith, Char.ofNat_toNat]

theorem unitsToChars_flatMap (l : List Char) :
    unitsToChars (l.flatMap utf16Units) = l := by
  induction l with
  | nil => rfl
  | cons c l ih =>
    simp only [List.flatMap_cons, List.append_assoc]
    rw [show (utf16Units c ++ l.flatMap utf16Units) =
      utf16Units c ++ l.flatMap utf16Units from rfl, unitsToChars_utf16, ih]

theorem parseStringUnits_escape (rest : List Char) (l : List Char) :
    parseStringUnits (l.flatMap jsonEscChar ++ '"' :: rest) =
      some (l.flatMap utf16Units, rest) := by
  induction l with
  | nil =>
    rw [List.flatMap_nil, List.nil_append, parseStringUnits.eq_def]
    simp
  | cons c l ih =>
    simp only [List.flatMap_cons, List.append_assoc]
    by_cases h1 : (c == '"') = true
    · have hc := eq_of_beq h1
      subst hc
      rw [show jsonEscChar '"' = ['\\', '"'] from by decide]
      rw [parseStringUnits.eq_def]
      simp [escDecode, ih, utf16Units]
    · by_cases h2 : (c == '\\') = true
      · have hc := eq_of_beq h2
        subst hc
        rw [show jsonEscChar '\\' = ['\\', '\\'] from by decide]
        rw [parseStringUnits.eq_def]
        simp [escDecode, ih, utf16Units]
      · by_cases h3 : (c == Char.ofNat 8) = true
        · have hc := eq_of_beq h3
          subst hc
          rw [show jsonEscChar (Char.ofNat 8) = ['\\', 'b'] from by decide]
          rw [parseStringUnits.eq_def]
          simp [escDecode, ih]
          rw [show utf16Units (Char.ofNat 8) = [8] from by decide]
          rfl
        · by_cases h4 : (c == Char.ofNat 9) = true
          · have hc := eq_of_beq h4
            subst hc
            rw [show jsonEscChar (Char.ofNat 9) = ['\\', 't'] from by decide]
            rw [parseStringUnits.eq_def]
            simp [escDecode, ih]
            rw [show utf16Units (Char.ofNat 9) = [9] from by decide]
            rfl
          · by_cases h5 : (c == Char.ofNat 10) = true
            · have hc := eq_of_beq h5
              subst hc
              rw [show jsonEscChar (Char.ofNat 10) = ['\\', 'n'] from by
                decide]
              rw [parseStringUnits.eq_def]
              simp [escDecode, ih]
              rw [show utf16Units (Char.ofNat 10) = [10] from by decide]
              rfl
            · by_cases h6 : (c == Char.ofNat 12) = true
              · have hc := eq_of_beq h6
                subst hc
                rw [show jsonEscChar (Char.ofNat 12) = ['\\', 'f'] from by
                  decide]
                rw [parseStringUnits.eq_def]
                simp [escDecode, ih]
                rw [show utf16Units (Char.ofNat 12) = [12] from by decide]
                rfl
              · by_cases h7 : (c == Char.ofNat 13) = true
                · have hc := eq_of_beq h7
                  subst hc
                  rw [show jsonEscChar (Char.ofNat 13) = ['\\', 'r'] from by
                    decide]
                  rw [parseStringUnits.eq_def]
                  simp [escDecode, ih]
                  rw [show utf16Units (Char.ofNat 13) = [13] from by decide]
                  rfl
                · by_cases h8 : c.toNat < 0x20
                  · -- generic control character: the \u00XX escape
                    have hesc : jsonEscChar c =
                        ['\\', 'u', '0', '0',
                          (if c.toNat / 16 < 10 then
                            Char.ofNat (48 + c.toNat / 16)
                          else Char.ofNat (87 + c.toNat / 16)),
                          (if c.toNat % 16 < 10 then
                            Char.ofNat (48 + c.toNat % 16)
                          else Char.ofNat (87 + c.toNat % 16))] := by
                      unfold jsonEscChar
                      rw [if_neg (by simpa using h1), if_neg (by simpa using h2),
                        if_neg (by simpa using h3), if_neg (by simpa using h4),
                        if_neg (by simpa using h5), if_neg (by simpa using h6),
                        if_neg (by simpa using h7), if_pos h8]
                    have hdivlt : c.toNat / 16 < 10 := by omega
                    have hd1 : hexVal? (if c.toNat / 16 < 10 then
                        Char.ofNat (48 + c.toNat / 16)
                        else Char.ofNat (87 + c.toNat / 16)) =
                        some (c.toNat / 16) := by
                      rw [if_pos hdivlt]
                      exact hexVal?_digitChar _ hdivlt
                    have hd2 : hexVal? (if c.toNat % 16 < 10 then
                        Char.ofNat (48 + c.toNat % 16)
                        else Char.ofNat (87 + c.toNat % 16)) =
                        some (c.toNat % 16) := by
                      by_cases hm : c.toNat % 16 < 10
                      · rw [if_pos hm]
                        exact hexVal?_digitChar _ hm
                      · rw [if_neg hm]
                        exact hexVal?_letterChar _ (by omega)
                          (Nat.mod_lt _ (by omega))
                    rw [hesc]
                    rw [parseStringUnits.eq_def]
                    simp only [List.cons_append, List.nil_append]
                    rw [if_neg (by decide), if_pos (by decide)]
                    rw [if_pos (by decide)]
                    rw [show hexVal? '0' = some 0 from by decide]
                    rw [hd1, hd2, ih]
                    have hval : ((0 * 16 + 0) * 16 + c.toNat / 16) * 16 +
                        c.toNat % 16 = c.toNat := by omega
                    have hunits : utf16Units c = [c.toNat] := by
                      simp [utf16Units]
                      omega
                    simp [hval, hunits]
                    omega
                  · -- ordinary character, emitted verbatim
                    have hesc : jsonEscChar c = [c] := by
                      unfold jsonEscChar
                      rw [if_neg (by simpa using h1), if_neg (by simpa using h2),
                        if_neg (by simpa using h3), if_neg (by simpa using h4),
                        if_neg (by simpa using h5), if_neg (by simpa using h6),
                        if_neg (by simpa using h7), if_neg h8]
                    rw [hesc]
                    rw [parseStringUnits.eq_def]
                    simp only [List.cons_append, List.nil_append]
                    rw [if_neg (by simpa using h1), if_neg (by simpa using h2),
                      if_neg h8]
                    rw [ih]

theorem string_data_append (s t : String) : (s ++ t).data = s.data ++ t.data :=
  rfl

theorem parse_key_title (rest : List Char) :
    parseStringUnits ('t' :: 'i' :: 't' :: 'l' :: 'e' :: '"' :: rest) =
      some ([116, 105, 116, 108, 101], rest) := by
  simp +decide [parseStringUnits.eq_def, utf16Units]

theorem parse_key_content (rest : List Char) :
    parseStringUnits
      ('c' :: 'o' :: 'n' :: 't' :: 'e' :: 'n' :: 't' :: '"' :: rest) =
      some ([99, 111, 110, 116, 101, 110, 116], rest) := by
  simp +decide [parseStringUnits.eq_def, utf16Units]

theorem parse_key_malformed (rest : List Char) :
    parseStringUnits ('h' :: 'a' :: 's' :: 'M' :: 'a' :: 'l' :: 'f' :: 'o' ::
      'r' :: 'm' :: 'e' :: 'd' :: 'H' :: 'T' :: 'M' :: 'L' :: '"' :: rest) =
      some ([104, 97, 115, 77, 97, 108, 102, 111, 114, 109, 101, 100, 72, 84,
        77, 76], rest) := by
  simp +decide [parseStringUnits.eq_def, utf16Units]

/-- The exact character sequence `saveToCache` writes for a cached page. -/
theorem stringifyCachedPage_data (t c : String) (b : Bool) :
    (stringifyCachedPage ⟨t, c, b⟩).data =
      '\x7b' :: '\n' :: ' ' :: ' ' :: '"' :: 't' :: 'i' :: 't' :: 'l' ::
        'e' :: '"' :: ':' :: ' ' :: '"' ::
        (t.data.flatMap jsonEscChar ++ ('"' :: ',' :: '\n' :: ' ' :: ' ' ::
          '"' :: 'c' :: 'o' :: 'n' :: 't' :: 'e' :: 'n' :: 't' :: '"' ::
          ':' :: ' ' :: '"' ::
          (c.data.flatMap jsonEscChar ++ ('"' :: ',' :: '\n' :: ' ' :: ' ' ::
            '"' :: 'h' :: 'a' :: 's' :: 'M' :: 'a' :: 'l' :: 'f' :: 'o' ::
            'r' :: 'm' :: 'e' :: 'd' :: 'H' :: 'T' :: 'M' :: 'L' :: '"' ::
            ':' :: ' ' ::
            ((if b then "true".data else "false".data) ++
              ['\n', '\x7d']))))) := by
  simp only [stringifyCachedPage, jsonQuote, string_data_append,
    List.append_assoc]
  cases b <;> rfl

theorem skipWs_cons_not_ws (c : Char) (l : List Char)
    (h : isJsonWs c = false) : skipWs (c :: l) = c :: l := by
  simp [skipWs, List.dropWhile_cons, h]

theorem unitsToString_flatMap (s : String) :
    unitsToString (s.data.flatMap utf16Units) = s := by
  unfold unitsToString
  rw [unitsToChars_flatMap]

/-- Parsing the pretty-printed cache text recovers the encoded record, for
any sufficient fuel. -/
theorem parseValue_stringifyCachedPage (t c : String) (b : Bool) (f : Nat) :
    parseValue (f + 5) ((stringifyCachedPage ⟨t, c, b⟩).data) =
      some (encodeCachedPage ⟨t, c, b⟩, []) := by
  rw [stringifyCachedPage_data]
  cases b <;>
  · simp +decide [parseValue, parseMembers, parseLit, skipWs,
      List.dropWhile_cons, isJsonWs, parse_key_title, parse_key_content,
      parse_key_malformed, parseStringUnits_escape, unitsToString,
      unitsToChars, objOfMembers, objAssign, encodeCachedPage]
    refine ⟨?_, ?_⟩ <;> rw [unitsToChars_flatMap]

/-- `JSON.parse ∘ JSON.stringify` round-trip on cached pages. -/
theorem jsonParse_stringifyCachedPage (p : CachedPage) :
    jsonParse (stringifyCachedPage p) = some (encodeCachedPage p) := by
  obtain ⟨t, c, b⟩ := p
  have hdata := stringifyCachedPage_data t c b
  have hlen : 4 ≤ (stringifyCachedPage ⟨t, c, b⟩).data.length := by
    rw [hdata]
    simp
  obtain ⟨f, hf⟩ :
      ∃ f, (stringifyCachedPage ⟨t, c, b⟩).data.length + 1 = f + 5 :=
    ⟨(stringifyCachedPage ⟨t, c, b⟩).data.length - 4, by omega⟩
  have hskip : skipWs (stringifyCachedPage ⟨t, c, b⟩).data =
      (stringifyCachedPage ⟨t, c, b⟩).data := by
    rw [hdata]
    exact skipWs_cons_not_ws _ _ (by decide)
  unfold jsonParse
  rw [hf, hskip, parseValue_stringifyCachedPage]
  simp [skipWs]

/-! ## Claim theorems: cache store -/

/-- **C8.** For every url, `getFromCache` returns absent (`none`, not an
error) when the cache file is missing or unreadable (a read error) or its
stored payload is malformed (a parse error), and returns absent
unconditionally when caching is administratively disabled. -/
theorem getFromCache_absent_cases (hashHex : String → String) (fs : FS)
    (url : String) :
    getFromCache false hashHex fs url = none ∧
    (∀ e, fs.read (getCacheKey hashHex url) = .error e →
      getFromCache true hashHex fs url = none) ∧
    (∀ s, fs.read (getCacheKey hashHex url) = .ok s → jsonParse s = none →
      getFromCache true hashHex fs url = none) := by
  refine ⟨rfl, ?_, ?_⟩
  · intro e he
    simp [getFromCache, he]
  · intro s hs hp
    simp [getFromCache, hs, hp]

/-- **C8 (witness).** The theorem applied to a disabled cache, a read that
fails, and a read that returns an unparsable payload. -/
theorem getFromCache_absent_cases_witness :
    getFromCache false (fun s => s) ⟨fun _ => .ok "\x7b\x7d"⟩ "u" = none ∧
    getFromCache true (fun s => s) ⟨fun _ => .error "ENOENT"⟩ "u" = none ∧
    getFromCache true (fun s => s) ⟨fun _ => .ok "not json"⟩ "u" = none :=
  ⟨(getFromCache_absent_cases (fun s => s) ⟨fun _ => .ok "\x7b\x7d"⟩ "u").1,
    (getFromCache_absent_cases (fun s => s) ⟨fun _ => .error "ENOENT"⟩
      "u").2.1 "ENOENT" rfl,
    (getFromCache_absent_cases (fun s => s) ⟨fun _ => .ok "not json"⟩
      "u").2.2 "not json" rfl (by rfl)⟩

/-! ## Claim theorems: content extraction -/

/-- **C3.** With caching enabled, if the cache lookup for `url` returns a
stored (truthy) record, then `extractContent` returns that record and issues
zero navigation, selector-wait, handle-query and in-page-evaluation calls on
the browser session (and no cache writes) during that call. -/
theorem extractContent_cache_hit_no_calls (hashHex : String → String)
    (fs : FS) (sess : Session) (url title : String) (j : Json)
    (hget : getFromCache true hashHex fs url = some j)
    (htruthy : jsTruthy j = true) :
    extractContent true hashHex fs sess url title = ⟨.ok j, [], []⟩ := by
  simp [extractContent, hget, truthyHit, htruthy]

/-- **C3 (witness).** The theorem applied to a concrete filesystem holding a
cached record for the url: the call returns the parsed record with an empty
browser-call trace. -/
theorem extractContent_cache_hit_no_calls_witness :
    extractContent true (fun s => s) allHitFS idleSession "u" "T" =
      ⟨.ok (.obj [("content", .str "x")]), [], []⟩ :=
  extractContent_cache_hit_no_calls (fun s => s) allHitFS idleSession "u" "T"
    (.obj [("content", .str "x")]) rfl rfl

/-- **C6.** For every extracted content region, the `hasMalformedHTML` flag
is true if and only if the serialized inner HTML contains at least one of the
fixed known-bad substrings `</div></p>`, `<p></div>`, `<div></p>`. -/
theorem extractFrameEval_malformed_iff (body : Node) (h t : String)
    (m : Bool) (heval : extractFrameEval body = .ok h t m) :
    (m = true ↔
      (jsIncludes h "</div></p>" = true ∨ jsIncludes h "<p></div>" = true ∨
        jsIncludes h "<div></p>" = true)) := by
  unfold extractFrameEval at heval
  cases hc : findContent body with
  | none => rw [hc] at heval; cases heval
  | some content =>
    rw [hc] at heval
    simp only [FrameEvalResult.ok.injEq] at heval
    obtain ⟨hh, -, hm⟩ := heval
    subst hh
    rw [← hm]
    simp [malformedPatterns, List.any, Bool.or_assoc]

/-- **C6 (witness).** The theorem applied to a content region containing the
literal substring `</div></p>` (flag true) and to one containing none of the
bad substrings (flag false). -/
theorem extractFrameEval_malformed_iff_witness :
    ((true : Bool) = true ↔
      (jsIncludes "<p><div></div></p>" "</div></p>" = true ∨
        jsIncludes "<p><div></div></p>" "<p></div>" = true ∨
        jsIncludes "<p><div></div></p>" "<div></p>" = true)) ∧
    ((false : Bool) = true ↔
      (jsIncludes "hello" "</div></p>" = true ∨
        jsIncludes "hello" "<p></div>" = true ∨
        jsIncludes "hello" "<div></p>" = true)) :=
  ⟨extractFrameEval_malformed_iff c6TreeBad "<p><div></div></p>" "" true rfl,
    extractFrameEval_malformed_iff c6TreeOk "hello" "hello" false rfl⟩

/-! ## The grouping reduce on non-prototype section labels -/

theorem groupDocsAux_ok (docs : List DocRecord)
    (hp : ∀ d ∈ docs, isProtoKey (sectionKey d) = false) :
    ∀ acc, groupDocsAux acc docs =
      .ok (docs.foldl (fun acc d => insertGroup acc (sectionKey d) d) acc) := by
  induction docs with
  | nil => intro acc; rfl
  | cons d ds ih =>
    intro acc
    have hd : isProtoKey (sectionKey d) = false := hp d (List.mem_cons_self d ds)
    have hstep : insertGroupE acc (sectionKey d) d =
        .ok (insertGroup acc (sectionKey d) d) := by
      unfold insertGroupE
      rw [hd]
      split <;> rfl
    simp only [groupDocsAux, hstep, List.foldl_cons]
    exact ih (fun x hx => hp x (List.mem_cons_of_mem d hx)) _

/-- On inputs without `Object.prototype` section labels, the reduce does not
throw and its value is the `groupDocs` accumulator. -/
theorem groupDocsE_eq_groupDocs (docs : List DocRecord)
    (hp : ∀ d ∈ docs, isProtoKey (sectionKey d) = false) :
    groupDocsE docs = .ok (groupDocs docs) :=
  groupDocsAux_ok docs hp []

theorem generateTableOfContentsE_eq (docs : List DocRecord)
    (hp : ∀ d ∈ docs, isProtoKey (sectionKey d) = false) :
    generateTableOfContentsE docs = .ok (generateTableOfContents docs) := by
  unfold generateTableOfContentsE
  rw [groupDocsE_eq_groupDocs docs hp]
  rfl

theorem generateHTMLE_eq (docs : List DocRecord)
    (hp : ∀ d ∈ docs, isProtoKey (sectionKey d) = false) :
    generateHTMLE docs = .ok (generateHTML docs) := by
  unfold generateHTMLE generateBodyE generateTableOfContentsE
  rw [groupDocsE_eq_groupDocs docs hp]
  rfl

/-! ## Claim theorems: pipeline orchestration -/

/-- When every url is a truthy cache hit, the extraction loop succeeds with
one record per link (in order), invokes extraction exactly on the listed
urls, and issues no cache writes. -/
theorem extractLoop_all_hits (hashHex : String → String) (fs : FS)
    (sessionFor : String → Session)
    (hall : ∀ url, truthyHit (getFromCache true hashHex fs url) = true) :
    ∀ ls, extractLoop true hashHex fs sessionFor ls =
      (.ok (ls.map (cachedDocOf hashHex fs)), ls.map LinkRecord.url, []) := by
  intro ls
  induction ls with
  | nil => rfl
  | cons l ls ih =>
    have h1 : extractContent true hashHex fs (sessionFor l.url) l.url l.text =
        ⟨.ok ((getFromCache true hashHex fs l.url).getD .null), [], []⟩ := by
      simp [extractContent, hall l.url]
    simp [extractLoop, h1, ih, cachedDocOf, jsContentField, Except.map]

/-- **C7 (amended).** With reduced/dev mode enabled (page ceiling
`DEV_PAGE_LIMIT`), and provided no processed link's (defaulted) section
label is an `Object.prototype` property name, a successful run extracts
exactly the first `min(DEV_PAGE_LIMIT, length)` discovered links, in
discovery order, and writes exactly one output file (`docs/index.html`,
holding the assembled document).  Stated under the hypothesis that every
page is a truthy cache hit, so that extraction incurs no cache writes and
the output write is the only file written.  (Without the section-label
proviso the assembly throws and no output file is written; see the
counterexample.) -/
theorem scrapeDocumentation_devmode_ceiling (hashHex : String → String)
    (fs : FS) (linksOracle : Nat → Except String (List LinkRecord))
    (sessionFor : String → Session) (links : List LinkRecord)
    (hlinks : linksOracle 0 = .ok links)
    (hall : ∀ url, truthyHit (getFromCache true hashHex fs url) = true)
    (hsec : ∀ l ∈ links.take DEV_PAGE_LIMIT,
      isProtoKey (if l.«section» == "" then "Reference" else l.«section») =
        false) :
    (scrapeDocumentation false true true hashHex fs linksOracle
      sessionFor).outcome = .ok () ∧
    (scrapeDocumentation false true true hashHex fs linksOracle
      sessionFor).extractedUrls =
      (links.take DEV_PAGE_LIMIT).map LinkRecord.url ∧
    (scrapeDocumentation false true true hashHex fs linksOracle
      sessionFor).writes =
      [(outputPath, generateHTML
        ((links.take DEV_PAGE_LIMIT).map (cachedDocOf hashHex fs)))] := by
  have hdisc : extractLinks linksOracle = (some (.ok links), 0) := by
    simp [extractLinks, extractLinksLoop, maxRetries, hlinks]
  have hloop := extractLoop_all_hits hashHex fs sessionFor hall
    (links.take DEV_PAGE_LIMIT)
  have hdocs : ∀ d ∈ (links.take DEV_PAGE_LIMIT).map (cachedDocOf hashHex fs),
      isProtoKey (sectionKey d) = false := by
    intro d hd
    rcases List.mem_map.1 hd with ⟨l, hl, rfl⟩
    have h1 := hsec l hl
    cases hb : l.«section» == "" <;>
      simp [cachedDocOf, sectionKey, hb] at h1 ⊢ <;> exact h1
  have hgen := generateHTMLE_eq _ hdocs
  rw [List.map_take] at hgen
  simp [scrapeDocumentation, hdisc, hloop, hgen]

/-- **C7 (witness).** The amended theorem applied to 20 concrete discovered
links with a ceiling of 10: exactly 10 pages are extracted, in discovery
order, and exactly one output file is written. -/
theorem scrapeDocumentation_devmode_ceiling_witness :
    c7Links.length = 20 ∧ DEV_PAGE_LIMIT = 10 ∧
    (scrapeDocumentation false true true (fun s => s) allHitFS
      (fun _ => .ok c7Links) (fun _ => idleSession)).extractedUrls.length
      = 10 ∧
    (scrapeDocumentation false true true (fun s => s) allHitFS
      (fun _ => .ok c7Links) (fun _ => idleSession)).extractedUrls =
      (c7Links.take 10).map LinkRecord.url ∧
    (scrapeDocumentation false true true (fun s => s) allHitFS
      (fun _ => .ok c7Links) (fun _ => idleSession)).writes.map Prod.fst =
      [outputPath] := by
  have h := scrapeDocumentation_devmode_ceiling (fun s => s) allHitFS
    (fun _ => .ok c7Links) (fun _ => idleSession) c7Links rfl (fun url => rfl)
    (by decide)
  refine ⟨by decide, rfl, ?_, ?_, ?_⟩
  · rw [h.2.1]
    decide
  · rw [h.2.1]
    exact rfl
  · rw [h.2.2]
    exact rfl

/-- **C7 (counterexample).** A discovered link whose section label is
`"toString"` refutes the original claim: the run extracts the page, but the
grouping reduce inside `generateHTML` throws the `TypeError` dropped by a
bare-map reading of the accumulator, the run fails, and no file — in
particular not the single output file — is written. -/
theorem scrapeDocumentation_no_output_on_proto_label :
    (scrapeDocumentation false true true (fun s => s) allHitFS
      (fun _ => .ok c7CexLinks) (fun _ => idleSession)).outcome =
      .error "TypeError: acc[section].push is not a function" ∧
    (scrapeDocumentation false true true (fun s => s) allHitFS
      (fun _ => .ok c7CexLinks) (fun _ => idleSession)).extractedUrls =
      ["https://threejs.org/docs/pX"] ∧
    (scrapeDocumentation false true true (fun s => s) allHitFS
      (fun _ => .ok c7CexLinks) (fun _ => idleSession)).writes = [] :=
  ⟨rfl, rfl, rfl⟩

/-! ## Claim theorems: document assembly -/

/-- **C1 (amended).** Provided no record's (defaulted) section label is an
`Object.prototype` property name, `generateTableOfContents` returns normally
and the set of anchor targets it emits (the `href` values after `#`) equals
the set of wrapper ids emitted in the viewer by `generateContent`; both are
obtained by applying `encodeURIComponent` to each record's title.  (Without
the proviso the grouping reduce throws a `TypeError` and the table of
contents emits no anchors at all; see the counterexample.) -/
theorem toc_anchor_set_eq_viewer_id_set (docs : List DocRecord) (a : String)
    (hp : ∀ d ∈ docs, isProtoKey (sectionKey d) = false) :
    generateTableOfContentsE docs = .ok (generateTableOfContents docs) ∧
    (a ∈ tocAnchors docs ↔ a ∈ viewerIds docs) := by
  refine ⟨generateTableOfContentsE_eq docs hp, ?_⟩
  simp only [tocAnchors, viewerIds, tocEntries]
  constructor
  · intro h
    rcases List.mem_flatMap.1 h with ⟨p, hp, ha⟩
    have hp' : p ∈ accOf docs := by
      rw [← groupDocs_eq_accOf]
      exact (mem_jsEntries _ _).1 hp
    rcases List.mem_map.1 hp' with ⟨s, _, rfl⟩
    rcases List.mem_map.1 ha with ⟨d, hd, rfl⟩
    exact List.mem_map.2 ⟨d, (List.mem_filter.1 hd).1, rfl⟩
  · intro h
    rcases List.mem_map.1 h with ⟨d, hd, rfl⟩
    refine List.mem_flatMap.2
      ⟨(sectionKey d, docs.filter fun d' => sectionKey d' == sectionKey d),
        ?_, ?_⟩
    · refine (mem_jsEntries _ _).2 ?_
      rw [groupDocs_eq_accOf]
      exact List.mem_map.2
        ⟨sectionKey d, (mem_firstSeenSections docs _).2 ⟨d, hd, rfl⟩, rfl⟩
    · exact List.mem_map.2
        ⟨d, List.mem_filter.2 ⟨hd, beq_self_eq_true _⟩, rfl⟩

/-- **C1 (counterexample).** A record whose section label is `"toString"`
refutes the for-every-input claim: the grouping reduce of
`generateTableOfContents` finds the truthy inherited
`Object.prototype.toString`, never creates the group, and
`acc[section].push(doc)` throws a `TypeError` — so the table of contents
emits no anchors, while `generateContent` emits the wrapper id `"t"`. -/
theorem toc_generation_throws_on_proto_label :
    generateTableOfContentsE c1CexDocs =
      .error "TypeError: acc[section].push is not a function" ∧
    viewerIds c1CexDocs = ["t"] :=
  ⟨rfl, by decide⟩

/-- **C1 (witness).** The amended theorem applied to three concrete records
(one with a defaulted section): the table of contents is generated without
throwing and the anchor `"Vector3"` appears in the table of contents exactly
as it appears among the viewer wrapper ids. -/
theorem toc_anchor_set_eq_viewer_id_set_witness :
    (∀ d ∈ c1WitnessDocs, isProtoKey (sectionKey d) = false) ∧
    generateTableOfContentsE c1WitnessDocs =
      .ok (generateTableOfContents c1WitnessDocs) ∧
    ("Vector3" ∈ tocAnchors c1WitnessDocs ↔
      "Vector3" ∈ viewerIds c1WitnessDocs) :=
  ⟨by decide,
    (toc_anchor_set_eq_viewer_id_set c1WitnessDocs "Vector3" (by decide)).1,
    (toc_anchor_set_eq_viewer_id_set c1WitnessDocs "Vector3" (by decide)).2⟩

/-- **C2 (amended).** Provided no (defaulted) section label is an ECMAScript
array-index string or an `Object.prototype` property name, the grouping
reduce returns normally and `generateTableOfContents` renders sections in
first-seen order of their section labels, each section holding exactly the
records with that label in their original relative input order.  (Without
the first proviso, an array-index-like label such as `"1"` is enumerated by
`Object.entries` before all non-numeric labels, breaking first-seen order —
see the counterexample; without the second, the reduce throws a `TypeError`
instead of rendering anything.) -/
theorem tocEntries_firstSeen_of_noArrayIndexKey (docs : List DocRecord)
    (h : ∀ d ∈ docs, isArrayIndexKey (sectionKey d) = false ∧
      isProtoKey (sectionKey d) = false) :
    groupDocsE docs = .ok (groupDocs docs) ∧
    tocEntries docs =
      (firstSeenSections docs).map
        fun s => (s, docs.filter fun d => sectionKey d == s) := by
  refine ⟨groupDocsE_eq_groupDocs docs (fun d hd => (h d hd).2), ?_⟩
  rw [tocEntries, groupDocs_eq_accOf]
  have hkeys : ∀ p ∈ accOf docs, isArrayIndexKey p.1 = false := by
    intro p hp
    rcases List.mem_map.1 hp with ⟨s, hs, rfl⟩
    rcases (mem_firstSeenSections docs s).1 hs with ⟨d, hd, rfl⟩
    exact (h d hd).1
  have h1 : (accOf docs).filter (fun p => isArrayIndexKey p.1) = [] := by
    rw [List.filter_eq_nil_iff]
    intro p hp hq
    rw [hkeys p hp] at hq
    cases hq
  have h2 : (accOf docs).filter (fun p => !isArrayIndexKey p.1) = accOf docs := by
    rw [List.filter_eq_self]
    intro p hp
    rw [hkeys p hp]
    rfl
  rw [jsEntries, h1, h2]
  rfl

/-- **C2 (counterexample).** On `c2CexDocs` the table of contents renders the
sections as `["1", "B"]`, not in the first-seen order `["B", "1"]`: the claim
"sections render in first-seen order of their labels for every input" fails
because JavaScript objects enumerate array-index-like keys first. -/
theorem tocEntries_not_firstSeen_on_numeric_label :
    (tocEntries c2CexDocs).map Prod.fst = ["1", "B"] ∧
    firstSeenSections c2CexDocs = ["B", "1"] ∧
    (tocEntries c2CexDocs).map Prod.fst ≠ firstSeenSections c2CexDocs := by
  refine ⟨by decide, by decide, by decide⟩

/-- **C2 (witness).** The amended theorem applied to the claim's example
`[A, B, A, C]`: sections render as `[A, B, C]` with A's two records in their
original relative order. -/
theorem tocEntries_firstSeen_witness :
    (∀ d ∈ c2ExampleDocs, isArrayIndexKey (sectionKey d) = false ∧
      isProtoKey (sectionKey d) = false) ∧
      groupDocsE c2ExampleDocs = .ok (groupDocs c2ExampleDocs) ∧
      tocEntries c2ExampleDocs =
        (firstSeenSections c2ExampleDocs).map
          (fun s => (s, c2ExampleDocs.filter fun d => sectionKey d == s)) ∧
      (tocEntries c2ExampleDocs).map Prod.fst = ["A", "B", "C"] ∧
      tocEntries c2ExampleDocs =
        [("A", [⟨"t1", "c1", "A"⟩, ⟨"t3", "c3", "A"⟩]),
         ("B", [⟨"t2", "c2", "B"⟩]),
         ("C", [⟨"t4", "c4", "C"⟩])] :=
  ⟨by decide,
    (tocEntries_firstSeen_of_noArrayIndexKey c2ExampleDocs (by decide)).1,
    (tocEntries_firstSeen_of_noArrayIndexKey c2ExampleDocs (by decide)).2,
    by decide, by decide⟩

/-- **C9.** Assembling the empty sequence (`generateHTML []`) produces a
document containing the fixed chrome markers — a root element with id `panel`
and a sibling root element with id `viewer` — and no page wrapper elements
(`div.manual`); the empty input is handled without error. -/
theorem generateHTML_empty_has_chrome_and_no_wrappers :
    jsIncludes (generateHTML []) "<div id=\"panel\">" = true ∧
    jsIncludes (generateHTML []) "<div id=\"viewer\">" = true ∧
    jsIncludes (generateHTML []) "class=\"manual\"" = false ∧
    generateContent [] = "" := by
  refine ⟨by decide, by decide, by decide, rfl⟩

/-- **C10.** With caching enabled, if the filesystem returns for each path
exactly what `saveToCache(url, page)` wrote there, then a subsequent
`getFromCache(url)` returns the JSON-serialize-then-parse image of `page`
(`encodeCachedPage`, which carries exactly the record's three fields);
moreover `getFromCache` performs no shape validation beyond JSON
well-formedness: whatever JSON value the stored text parses to is returned
verbatim. -/
theorem saveToCache_getFromCache_roundtrip (hashHex : String → String)
    (fs : FS) (url : String) (p : CachedPage)
    (hread : ∀ pr ∈ saveToCacheWrites true hashHex url p,
      fs.read pr.1 = .ok pr.2) :
    getFromCache true hashHex fs url = some (encodeCachedPage p) ∧
    ∀ (g : FS) (u s : String) (v : Json),
      g.read (getCacheKey hashHex u) = .ok s → jsonParse s = some v →
      getFromCache true hashHex g u = some v := by
  constructor
  · have h := hread (getCacheKey hashHex url, stringifyCachedPage p)
      (by simp [saveToCacheWrites])
    simp [getFromCache, h, jsonParse_stringifyCachedPage]
  · intro g u s v hr hp
    simp [getFromCache, hr, hp]

/-- **C10 (witness).** Writing `c10Page` (quotes, backslash, newline, tab, a
control character, an accented character and an astral emoji) and reading it
back yields exactly the three-field JSON object of the page. -/
theorem saveToCache_getFromCache_roundtrip_witness :
    getFromCache true c10Hash c10FS c10Url =
      some (.obj [("title", .str "Vector3 \"docs\""),
        ("content", .str "a\\b\n\tc\x01é😀"),
        ("hasMalformedHTML", .bool true)]) :=
  (saveToCache_getFromCache_roundtrip c10Hash c10FS c10Url c10Page
    (by intro pr hpr
        simp [saveToCacheWrites] at hpr
        subst hpr
        simp [c10FS])).1

end Scraper
